import Mathlib

/-!
# Verification of Quaternion's `RoomListModel` (client/models/roomlistmodel.cpp)

A shallow embedding of the room-list model: a list of room groups, each a
caption together with a sorted list of rooms, maintained by sorted insertion
and removal keyed on a configurable tags-order preference list.

Modelling conventions:
* `QString`s are Lean `String`s (sequences of code points, lexicographic `<`);
  Qt compares UTF-16 code units, which agrees on the material here.
* A `QuaternionRoom*` is modelled by a `Room` value; structural equality models
  pointer equality (distinct room objects are distinguished by at least one of
  `id`, `conn`, `tags`, `isDirect`).
* A tag's `order` field is modelled as `Option Int` (`none` = omitted).
* `std::lower_bound` is modelled by the textbook binary search both libstdc++
  and libc++ implement (`half := len / 2`, narrow left on `comp`), so that its
  behaviour is captured exactly even on ranges that are not partitioned.
-/

namespace RoomList

/-- A chat room as the model observes it through the client library:
its id, its tag map `tags` (key, optional order), whether it is a direct
chat, and an identifier `conn` of the connection (account) that owns it. -/
structure Room where
  id : String
  tags : List (String × Option Int)
  isDirect : Bool
  conn : Nat
deriving DecidableEq

/-- `static const auto DirectChat = QStringLiteral("org.qmatrixclient.direct");` -/
def DirectChat : String := "org.qmatrixclient.direct"

/-- `static const auto Untagged = QStringLiteral("org.qmatrixclient.none");` -/
def Untagged : String := "org.qmatrixclient.none"

/-- `QMatrixClient::FavouriteTag` ("m.favourite", the Matrix standard tag). -/
def FavouriteTag : String := "m.favourite"

/-- `QMatrixClient::LowPriorityTag` ("m.lowpriority", the Matrix standard tag). -/
def LowPriorityTag : String := "m.lowpriority"

/-- `static const QStringList DefaultTagsOrder { FavouriteTag, "u.*", DirectChat, Untagged, LowPriorityTag }` -/
def DefaultTagsOrder : List String :=
  [FavouriteTag, "u.*", DirectChat, Untagged, LowPriorityTag]

/-- `r->tag(tagName).order`: the order of tag `t` on room `r`; a missing tag
yields a default `TagRecord`, whose order is omitted. -/
def Room.tagOrder (r : Room) (t : String) : Option Int :=
  match r.tags.find? (fun p => p.1 == t) with
  | some p => p.2
  | none => none

/-- `RoomGroup { QVariant caption; QVector<QuaternionRoom*> rooms; }` -/
structure RoomGroup where
  caption : String
  rooms : List Room
deriving DecidableEq

/-- The state of `RoomListModel` that the claims are about: the group list
`m_roomGroups` and the connection list `m_connections` (connections are
identified by the same `Nat` that rooms carry in `Room.conn`). -/
structure Model where
  groups : List RoomGroup
  connections : List Nat
deriving DecidableEq

/-! ## The tags-order index with wildcards (`findIndex` / `findIndexWithWildcards`) -/

/-- `std::find(list.begin(), list.end(), value) - list.begin()`: the index of
the first occurrence of `value`, or `list.size()` when absent. -/
def findIndex (l : List String) (v : String) : Nat := l.indexOf v

/-- The largest position `d ≤ k` with `v[d] = '.'`, or `none`.  Positions
`≥ v.length` hold no character, so a too-large `k` is harmless (QString
clamps the start position the same way). -/
def lastDotLE (v : List Char) : Nat → Option Nat
  | 0 => if v[0]? = some '.' then some 0 else none
  | k + 1 => if v[k + 1]? = some '.' then some (k + 1) else lastDotLE v k

/-- `QString::lastIndexOf('.', from)`: a negative `from` counts from the end
(`from += size()`); returns the position of the last dot at or before the
start position, or `-1`. -/
def qLastIndexOfDot (v : List Char) (fr : Int) : Int :=
  let f : Int := if fr < 0 then fr + v.length else fr
  if f < 0 then -1
  else
    match lastDotLE v f.toNat with
    | some d => (d : Int)
    | none => -1

/-- `value.left(dotPos + 1) + '*'`: the namespace wildcard candidate for the
dot at position `d`. -/
def wildcardCandidate (v : List Char) (d : Nat) : String :=
  String.mk (v.take (d + 1)) ++ "*"

/-- One iteration of the wildcard-search loop in `findIndexWithWildcards`.
The state is `(i, dotPos)`; `none` means the loop condition
`i == list.size() && (dotPos = value.lastIndexOf('.', --dotPos)) != -1`
failed and the loop exits with the current `i`. -/
def wwStep (l : List String) (v : List Char) (s : Nat × Int) : Option (Nat × Int) :=
  if s.1 ≠ l.length then none
  else
    let d := qLastIndexOfDot v (s.2 - 1)
    if d < 0 then none
    else some (findIndex l (wildcardCandidate v d.toNat), d)

/-- The wildcard-search loop, driven by `wwStep` with explicit fuel. -/
def wwLoop (l : List String) (v : List Char) : Nat → Nat × Int → Nat
  | 0, s => s.1
  | fuel + 1, s =>
    match wwStep l v s with
    | none => s.1
    | some s' => wwLoop l v fuel s'

/-- `findIndexWithWildcards(list, value)`.  The C++ loop terminates in at most
`#dots(value)` iterations whenever it terminates at all, so fuel
`value.length + 1` reproduces it exactly on every terminating input.  (When
`value` contains a dot at position 0 and no candidate matches, the C++ loop
wraps around — `lastIndexOf('.', -1)` restarts from the end — and never
terminates; see the theorems on `wwStep` below.  On those inputs this total
model returns the fuel-exhaustion value `findIndex`'s last state holds.) -/
def findIndexWithWildcards (l : List String) (v : String) : Nat :=
  if l.isEmpty || v.isEmpty then l.length
  else wwLoop l v.data (v.length + 1) (findIndex l v, 0)

/-! ## The comparators installed by `RoomListModel::setOrder` -/

/-- Lexicographic comparison of character lists; an executable form of the
list order underlying `String`'s `<` (see `qstringLess_iff`). -/
def charListLt : List Char → List Char → Bool
  | _, [] => false
  | [], _ :: _ => true
  | a :: as, b :: bs => if a < b then true else if b < a then false else charListLt as bs

/-- `QString::operator<`: lexicographic comparison, modelled as `String`'s
`<` in executable form. -/
def qstringLess (a b : String) : Bool := charListLt a.data b.data

/-- The group comparator lambda of `RoomListModel::setOrder` (`groupLessThan`),
with the tags-order preference list `to` (the result of `initTagsOrder()`)
passed explicitly. -/
def groupLessThan (tagsOrder : List String) (g t : String) : Bool :=
  let li := findIndexWithWildcards tagsOrder g
  let ri := findIndexWithWildcards tagsOrder t
  decide (li < ri) || (decide (li = ri) && qstringLess g t)

/-- The room comparator produced by the `roomLessThanFactory` lambda of
`RoomListModel::setOrder` for the group caption (tag) `tag`. -/
def roomLessThan (tag : String) (r1 r2 : Room) : Bool :=
  if r1 = r2 then false
  else
    match r1.tagOrder tag, r2.tagOrder tag with
    | o1, none => o1.isSome || qstringLess r1.id r2.id
    | none, some _ => false
    | some v1, some v2 =>
      if v1 < v2 then true
      else if v1 > v2 ∨ r1.id = r2.id then false
      else qstringLess r1.id r2.id

/-! ## `std::lower_bound` -/

/-- The binary search `std::lower_bound` performs on the index range
`[first, first + len)`: `half := len / 2`; if the comparator accepts the
middle element the left half (middle included) is discarded, otherwise the
right half is.  The extra fuel argument only drives structural recursion:
`len` shrinks strictly every round, so any fuel `≥ len` gives the search's
value. -/
def lbAux (comp : α → Bool) (xs : List α) : Nat → Nat → Nat → Nat
  | 0, first, _ => first
  | fuel + 1, first, len =>
    if len = 0 then first
    else
      match xs[first + len / 2]? with
      | none => first
      | some mid =>
        if comp mid then lbAux comp xs fuel (first + len / 2 + 1) (len - len / 2 - 1)
        else lbAux comp xs fuel first (len / 2)

/-- `std::lower_bound(xs.begin(), xs.end(), v, comp)` as a position, where
`comp x = true` means `x < v`. -/
def lowerBoundPos (comp : α → Bool) (xs : List α) : Nat :=
  lbAux comp xs xs.length 0 xs.length

/-- `RoomListModel::lowerBoundGroup(group)`: lower bound among the groups,
by `m_roomOrder.groupLessThan` applied to the stored captions. -/
def lowerBoundGroupPos (tagsOrder : List String) (gs : List RoomGroup) (cap : String) : Nat :=
  lowerBoundPos (fun g => groupLessThan tagsOrder g.caption cap) gs

/-- `RoomListModel::lowerBoundRoom(group, room)`: lower bound inside a group,
by `m_roomOrder.roomLessThanFactory(group.caption)`. -/
def lowerBoundRoomPos (g : RoomGroup) (r : Room) : Nat :=
  lowerBoundPos (fun x => roomLessThan g.caption x r) g.rooms

/-- The `groups` lambda of `RoomListModel::setOrder`: the tag keys of the
room, plus `DirectChat` for direct chats, with `Untagged` when the list would
otherwise be empty. -/
def groupsOf (r : Room) : List String :=
  let vl := r.tags.map Prod.fst ++ (if r.isDirect then [DirectChat] else [])
  if vl.isEmpty then [Untagged] else vl

/-! ## Change notifications

The begin/end notifications the model sends to its views.  A parent index is
`none` for the root (the group level) and `some gPos` for the group at
position `gPos`. -/

/-- One view notification, as emitted by the model. -/
inductive Event where
  | beginInsertRows (parent : Option Nat) (first last : Nat)
  | endInsertRows
  | beginRemoveRows (parent : Option Nat) (first last : Nat)
  | endRemoveRows
  | beginMoveRows (srcParent : Option Nat) (first last : Nat) (dstParent : Option Nat) (dst : Nat)
  | endMoveRows
  | groupAddedSignal (pos : Nat)
  | beginResetModel
  | endResetModel
deriving DecidableEq

/-- Qt's `beginMoveRows` semantics for a single row within one parent:
the row at `src` is relocated so that it lands where row `dst` (in pre-move
numbering) was; a destination after the source makes the row end up at
`dst - 1`. -/
def applyMoveRow (l : List α) (src dst : Nat) : List α :=
  match l[src]? with
  | none => l
  | some x => if dst ≤ src then (l.eraseIdx src).insertIdx dst x
              else (l.eraseIdx src).insertIdx (dst - 1) x

/-! ## The mutating operations of `RoomListModel` -/

/-- `RoomListModel::tryInsertGroup(caption, notify)`: look the caption up by
`lowerBoundGroup`; if the group at that position does not exist or carries a
different caption, insert a fresh empty group there (bracketed by
begin/endInsertRows and followed by the `groupAdded` signal when `notify`).
Returns the new group list, the group's position, and the emitted events. -/
def tryInsertGroup (tagsOrder : List String) (gs : List RoomGroup) (cap : String)
    (notify : Bool) : List RoomGroup × Nat × List Event :=
  let gPos := lowerBoundGroupPos tagsOrder gs cap
  if (gs[gPos]?.map RoomGroup.caption) = some cap then (gs, gPos, [])
  else
    (gs.insertIdx gPos ⟨cap, []⟩, gPos,
     if notify then [.beginInsertRows none gPos gPos, .endInsertRows, .groupAddedSignal gPos]
     else [])

/-- One iteration of the loop in `RoomListModel::insertRoomToGroups`: ensure
the group for caption `cap` exists, then insert `r` at its lower-bound
position unless that position already holds `r` (then warn and leave the
group unchanged). -/
def insertRoomToGroup (tagsOrder : List String) (gs : List RoomGroup) (cap : String)
    (r : Room) (notify : Bool) : List RoomGroup × List Event :=
  let t := tryInsertGroup tagsOrder gs cap notify
  let gs1 := t.1
  let gPos := t.2.1
  let ev1 := t.2.2
  match gs1[gPos]? with
  | none => (gs1, ev1)
  | some g =>
    let rPos := lowerBoundRoomPos g r
    if g.rooms[rPos]? = some r then (gs1, ev1)
    else
      (gs1.set gPos { g with rooms := g.rooms.insertIdx rPos r },
       ev1 ++ if notify then [.beginInsertRows (some gPos) rPos rPos, .endInsertRows] else [])

/-- `RoomListModel::insertRoomToGroups(groups, room, notify)`. -/
def insertRoomToGroups (tagsOrder : List String) (gs : List RoomGroup) (caps : List String)
    (r : Room) (notify : Bool) : List RoomGroup × List Event :=
  caps.foldl (fun acc cap =>
    let s := insertRoomToGroup tagsOrder acc.1 cap r notify
    (s.1, acc.2 ++ s.2)) (gs, [])

/-- `RoomListModel::insertRoom(room, notify)`: insert into the groups the
current order assigns to the room. -/
def insertRoom (tagsOrder : List String) (gs : List RoomGroup) (r : Room)
    (notify : Bool) : List RoomGroup × List Event :=
  insertRoomToGroups tagsOrder gs (groupsOf r) r notify

/-- `RoomListModel::doRemoveRoom(idx)` with `idx` decomposed as the group
position `gPos` and room row `rPos`: erase the room, bracketed by
begin/endRemoveRows; when the group becomes empty, remove the group too,
with its own begin/endRemoveRows pair.  An invalid index changes nothing
(`qCritical` and return). -/
def doRemoveRoom (gs : List RoomGroup) (gPos rPos : Nat) : List RoomGroup × List Event :=
  match gs[gPos]? with
  | none => (gs, [])
  | some g =>
    if rPos < g.rooms.length then
      let rooms' := g.rooms.eraseIdx rPos
      let ev := [Event.beginRemoveRows (some gPos) rPos rPos, Event.endRemoveRows]
      if rooms'.isEmpty then
        ((gs.set gPos { g with rooms := rooms' }).eraseIdx gPos,
         ev ++ [Event.beginRemoveRows none gPos gPos, Event.endRemoveRows])
      else (gs.set gPos { g with rooms := rooms' }, ev)
    else (gs, [])

/-- `RoomListModel::indexOf(group, room)` for a non-null room: find the group
by `lowerBoundGroup` (checking the caption matches), then the room by
`lowerBoundRoom` (checking the element there is the room); `none` models the
invalid `QModelIndex{}` returned when either check fails. -/
def indexOfRoom (tagsOrder : List String) (gs : List RoomGroup) (cap : String)
    (r : Room) : Option (Nat × Nat) :=
  let gPos := lowerBoundGroupPos tagsOrder gs cap
  match gs[gPos]? with
  | none => none
  | some g =>
    if g.caption ≠ cap then none
    else
      let rPos := lowerBoundRoomPos g r
      if g.rooms[rPos]? = some r then some (gPos, rPos) else none

/-- `RoomListModel::deleteRoom(room)`, i.e. `visitRoom(room, doRemoveRoom)`:
for each caption the current order assigns to the room, look the room up
(`indexOf`, recomputed on the current state) and remove it when found; a
failed lookup only warns and continues. -/
def deleteRoom (tagsOrder : List String) (gs : List RoomGroup) (r : Room) :
    List RoomGroup × List Event :=
  (groupsOf r).foldl (fun acc cap =>
    match indexOfRoom tagsOrder acc.1 cap r with
    | none => acc
    | some p =>
      let s := doRemoveRoom acc.1 p.1 p.2
      (s.1, acc.2 ++ s.2)) (gs, [])

/-- `RoomListModel::deleteConnection(connection)`: when the connection is
known, remove every room owned by it from every group, then drop the groups
left empty, all inside a model reset; an unknown connection only asserts and
returns. -/
def deleteConnection (m : Model) (conn : Nat) : Model × List Event :=
  if conn ∈ m.connections then
    ({ groups := (m.groups.map (fun g =>
          { g with rooms := g.rooms.filter (fun r => r.conn ≠ conn) })).filter
          (fun g => ¬ g.rooms.isEmpty),
       connections := m.connections.erase conn },
     [.beginResetModel, .endResetModel])
  else (m, [])

/-- `RoomListModel::addConnection(connection)`: record the connection and
insert each room of its room map, inside a model reset.  (The `insertRoom(r)`
calls sit between begin/endResetModel, so their `notify` flag is modelled as
off.) -/
def addConnection (tagsOrder : List String) (m : Model) (conn : Nat)
    (roomMap : List Room) : Model × List Event :=
  (roomMap.foldl (fun acc r => { acc with groups := (insertRoom tagsOrder acc.groups r false).1 })
    { m with connections := m.connections ++ [conn] },
   [.beginResetModel, .endResetModel])

/-- `RoomListModel::doRebuild()`: clear `m_roomGroups` and re-insert every
room of every connection (`rs` is the concatenation of the room maps).
`replaceRoom` and `setOrder` run this between begin/endResetModel. -/
def rebuildGroups (tagsOrder : List String) (rs : List Room) : List RoomGroup :=
  rs.foldl (fun gs r => (insertRoom tagsOrder gs r false).1) []

/-! ## The tag-change handler (`prepareToUpdateGroups` / `updateGroups`)

`m_roomIdxCache` holds persistent indices taken before the tags change; a
persistent index keeps pointing at the same stored row while other rows are
inserted or removed.  During the `updateGroups` loop only removals of the
updated room itself (and of groups it empties) happen, so a cached index is
modelled by the group's caption (group identity, stable under the loop's
reorderings) paired with the room's row, which no step of the loop shifts. -/

/-- `RoomListModel::prepareToUpdateGroups(room)`: cache the room's index in
every group the (pre-change) order assigns it to.  (The C++ asserts that each
lookup succeeds; a failed lookup is skipped here.) -/
def prepareToUpdateGroups (tagsOrder : List String) (gs : List RoomGroup) (r : Room) :
    List (String × Nat) :=
  (groupsOf r).filterMap (fun cap =>
    (indexOfRoom tagsOrder gs cap r).map (fun p => (cap, p.2)))

/-- The loop of `RoomListModel::updateGroups` over the cached indices.
`rem` is the mutable `groups` list (the room's new captions, consumed by
`removeOne`).  In the branch where the room stays in the group and its
lower-bound position changed, the C++ runs
`std::move(oldIt, oldIt + 1, newIt)`, which assigns `*newIt = *oldIt` — an
overwrite of the destination row, not a relocation; `List.set newPos` models
exactly that.  (When `newPos` is the past-the-end position the C++ write is
out of bounds; `List.set` then changes nothing.) -/
def updateGroupsLoop (tagsOrder : List String) (r : Room) :
    List (String × Nat) → List RoomGroup → List String → List Event →
    List RoomGroup × List String × List Event
  | [], gs, rem, ev => (gs, rem, ev)
  | (cap, rPos) :: rest, gs, rem, ev =>
    match gs.findIdx? (fun g => g.caption == cap) with
    | none => updateGroupsLoop tagsOrder r rest gs rem ev
    | some gPos =>
      match gs[gPos]? with
      | none => updateGroupsLoop tagsOrder r rest gs rem ev
      | some g =>
        if rem.contains cap then
          let rem' := rem.erase cap
          match g.rooms[rPos]? with
          | none => updateGroupsLoop tagsOrder r rest gs rem' ev
          | some oldRoom =>
            let newPos := lowerBoundRoomPos g r
            if newPos = rPos then updateGroupsLoop tagsOrder r rest gs rem' ev
            else
              updateGroupsLoop tagsOrder r rest
                (gs.set gPos { g with rooms := g.rooms.set newPos oldRoom }) rem'
                (ev ++ [.beginMoveRows (some gPos) rPos rPos (some gPos) newPos, .endMoveRows])
        else
          let s := doRemoveRoom gs gPos rPos
          updateGroupsLoop tagsOrder r rest s.1 rem (ev ++ s.2)

/-- `RoomListModel::updateGroups(room)` (with `GroupByTag` order): walk the
cached indices, then insert the room into the groups it newly belongs to. -/
def updateGroups (tagsOrder : List String) (gs : List RoomGroup)
    (cache : List (String × Nat)) (r : Room) : List RoomGroup × List Event :=
  let s := updateGroupsLoop tagsOrder r cache gs (groupsOf r) []
  let t := insertRoomToGroups tagsOrder s.1 s.2.1 r true
  (t.1, s.2.2 ++ t.2)

/-- A complete tag change on room `rOld`, giving it the tags of `rNew`
(same room object, so `rNew` differs from `rOld` only in `tags`):
`tagsAboutToChange` fires `prepareToUpdateGroups`, the room object mutates
(every stored occurrence of `rOld` now reads as `rNew`), then `tagsChanged`
fires `updateGroups`. -/
def tagsChange (tagsOrder : List String) (gs : List RoomGroup) (rOld rNew : Room) :
    List RoomGroup × List Event :=
  let cache := prepareToUpdateGroups tagsOrder gs rOld
  let gs1 := gs.map (fun g =>
    { g with rooms := g.rooms.map (fun x => if x = rOld then rNew else x) })
  updateGroups tagsOrder gs1 cache rNew

/-! ## Model indices (`index` / `parent` / `hasIndex`) -/

/-- The data of a valid `QModelIndex` as this model creates them: row, column
and the `internalId` (`-1` for groups, the group's ordinal for rooms).  Rows
and columns of indices created through `index()` are never negative. -/
structure QIdx where
  row : Nat
  col : Nat
  iid : Int
deriving DecidableEq

/-- A possibly-invalid `QModelIndex` (`none` is the invalid index). -/
abbrev MIdx := Option QIdx

/-- `QModelIndex::row()`: `-1` on the invalid index. -/
def mRow (i : MIdx) : Int :=
  match i with
  | none => -1
  | some q => q.row

/-- `RoomListModel::index(row, 0, {})` — the root-parented case of `index`:
`hasIndex(row, 0, {})` checks `0 ≤ row < m_roomGroups.size()`, and the index
is created with internal id `-1`. -/
def mIndexRoot (m : Model) (row col : Int) : MIdx :=
  if 0 ≤ row ∧ row < (m.groups.length : Int) ∧ 0 ≤ col ∧ col < 1 then
    some ⟨row.toNat, col.toNat, -1⟩
  else none

/-- `RoomListModel::parent(child)`: an index with internal id `-1` (or the
invalid index) has the invalid parent; otherwise the parent is
`index(internalId, 0)`. -/
def mParent (m : Model) (c : MIdx) : MIdx :=
  match c with
  | none => none
  | some q => if q.iid = -1 then none else mIndexRoot m q.iid 0

/-- `RoomListModel::isValidGroupIndex(i)`. -/
def isValidGroupIndexB (m : Model) (i : MIdx) : Bool :=
  i.isSome && !(mParent m i).isSome && decide (mRow i < (m.groups.length : Int))

/-- `RoomListModel::rowCount(parent)`: group count at the root, room count
under a valid group index, 0 under anything else. -/
def mRowCount (m : Model) (p : MIdx) : Nat :=
  match p with
  | none => m.groups.length
  | some q =>
    if isValidGroupIndexB m p then
      match m.groups[q.row]? with
      | some g => g.rooms.length
      | none => 0
    else 0

/-- `QAbstractItemModel::hasIndex(row, column, parent)`:
`0 ≤ row < rowCount(parent)` and `0 ≤ column < columnCount(parent)` (the
column count is 1 everywhere). -/
def mHasIndex (m : Model) (row col : Int) (p : MIdx) : Bool :=
  decide (0 ≤ row) && decide (row < (mRowCount m p : Int)) &&
  decide (0 ≤ col) && decide (col < 1)

/-- `RoomListModel::index(row, column, parent)`: an accepted pair is created
with internal id `-1` under the root and the parent's row under a group. -/
def mIndex (m : Model) (row col : Int) (p : MIdx) : MIdx :=
  if mHasIndex m row col p then
    some ⟨row.toNat, col.toNat, match p with | some q => (q.row : Int) | none => -1⟩
  else none

/-- `RoomListModel::isValidRoomIndex(i)`. -/
def isValidRoomIndexB (m : Model) (i : MIdx) : Bool :=
  i.isSome && isValidGroupIndexB m (mParent m i) &&
  (match mParent m i with
   | some pq =>
     match m.groups[pq.row]? with
     | some g => decide (mRow i < (g.rooms.length : Int))
     | none => false
   | none => false)

/-- `m_roomGroups[index.row()].caption.toString()`: the caption of the group
an index addresses (the empty string stands in for the out-of-range access a
stale index would make). -/
def groupCaptionAt (m : Model) (i : MIdx) : String :=
  match i with
  | some q =>
    (match m.groups[q.row]? with
     | some g => g.caption
     | none => "")
  | none => ""

/-- `QString::startsWith(text)`, in executable form. -/
def strStartsWith (t pre : String) : Bool := pre.data.isPrefixOf t.data

/-- `RoomListModel::deleteTag(index)`: with an invalid group index, an empty
caption, or a caption in the `org.qmatrixclient.` namespace, return leaving
the model untouched; otherwise ask every connection to remove the tag from
its rooms (the model itself changes only later, through the rooms'
tag-change signals).  The second component is the tag whose removal was
requested, `none` when the call was refused. -/
def deleteTag (m : Model) (i : MIdx) : Model × Option String :=
  if ¬ isValidGroupIndexB m i then (m, none)
  else
    let tag := groupCaptionAt m i
    if tag = "" then (m, none)
    else if strStartsWith tag "org.qmatrixclient." then (m, none)
    else (m, some tag)

/-! ## Order-theoretic structure of the two comparators

Both comparators are strict weak orders; each is the pullback of the strict
order of a lexicographic key.  All sortedness reasoning goes through these
keys. -/

/-- The sort key realised by `roomLessThan tag`: rooms with an order value
first (by value), rooms without one after, ties broken by room id. -/
def roomKey (tag : String) (r : Room) : Lex (Nat × Lex (Int × String)) :=
  toLex ((if (r.tagOrder tag).isSome then 0 else 1),
         toLex ((r.tagOrder tag).getD 0, r.id))

/-- The sort key realised by `groupLessThan tagsOrder`: the wildcard index
into the tags-order list, ties broken by the caption itself. -/
def groupKey (tagsOrder : List String) (c : String) : Lex (Nat × String) :=
  toLex (findIndexWithWildcards tagsOrder c, c)

theorem charListLt_iff : ∀ (s t : List Char), charListLt s t = true ↔ List.Lex (· < ·) s t
  | s, [] => by
    constructor
    · intro h
      rw [show charListLt s [] = false from by cases s <;> rfl] at h
      cases h
    · intro h
      cases h
  | [], b :: bs => by
    rw [charListLt]
    exact iff_of_true rfl List.Lex.nil
  | a :: as, b :: bs => by
    rw [charListLt]
    rcases lt_trichotomy a b with h | h | h
    · rw [if_pos h]
      exact iff_of_true rfl (List.Lex.rel h)
    · subst h
      rw [if_neg (lt_irrefl a), if_neg (lt_irrefl a)]
      rw [charListLt_iff as bs]
      exact List.Lex.cons_iff.symm
    · rw [if_neg (lt_asymm h), if_pos h]
      constructor
      · intro hh
        cases hh
      · intro hh
        cases hh with
        | rel h' => exact absurd h' (lt_asymm h)
        | cons h' => exact absurd h (lt_irrefl _)

/-- The executable comparison agrees with `String`'s `<`. -/
theorem qstringLess_iff (a b : String) : qstringLess a b = true ↔ a < b := by
  rw [qstringLess, charListLt_iff, String.lt_iff_toList_lt]
  exact Iff.rfl

theorem groupLessThan_iff_key (tagsOrder : List String) (g t : String) :
    groupLessThan tagsOrder g t = true ↔
      groupKey tagsOrder g < groupKey tagsOrder t := by
  unfold groupLessThan groupKey
  simp [Prod.Lex.lt_iff, qstringLess_iff]

theorem roomLessThan_iff_key (tag : String) (a b : Room) :
    roomLessThan tag a b = true ↔ roomKey tag a < roomKey tag b := by
  unfold roomLessThan roomKey
  by_cases hab : a = b
  · subst hab
    simp [lt_irrefl]
  · rw [if_neg hab]
    rcases ho1 : a.tagOrder tag with _ | v1 <;> rcases ho2 : b.tagOrder tag with _ | v2 <;>
      simp [ho1, ho2, Prod.Lex.lt_iff, qstringLess_iff]
    constructor
    · rintro (h | ⟨⟨hle, hne⟩, hdata⟩)
      · exact Or.inl h
      · rcases lt_or_eq_of_le hle with h | h
        · exact Or.inl h
        · exact Or.inr ⟨h, hdata⟩
    · rintro (h | ⟨hv, hdata⟩)
      · exact Or.inl h
      · subst hv
        refine Or.inr ⟨⟨le_refl _, fun he => ?_⟩, hdata⟩
        rw [he] at hdata
        exact lt_irrefl _ hdata

theorem roomLessThan_eq_false_iff (tag : String) (a b : Room) :
    roomLessThan tag a b = false ↔ ¬ roomKey tag a < roomKey tag b := by
  rw [← roomLessThan_iff_key]
  cases roomLessThan tag a b <;> simp

theorem groupLessThan_eq_false_iff (tagsOrder : List String) (g t : String) :
    groupLessThan tagsOrder g t = false ↔
      ¬ groupKey tagsOrder g < groupKey tagsOrder t := by
  rw [← groupLessThan_iff_key]
  cases groupLessThan tagsOrder g t <;> simp

/-- Asymmetry of the room comparator. -/
theorem roomLessThan_asymm {tag : String} {a b : Room}
    (h : roomLessThan tag a b = true) : roomLessThan tag b a = false := by
  rw [roomLessThan_iff_key] at h
  rw [roomLessThan_eq_false_iff]
  exact lt_asymm h

/-- The strict-weak-order glue of the room comparator: `a ≤ b < v → a < v`. -/
theorem roomLessThan_mono {tag : String} {a b v : Room}
    (h1 : roomLessThan tag b a = false) (h2 : roomLessThan tag b v = true) :
    roomLessThan tag a v = true := by
  rw [roomLessThan_eq_false_iff] at h1
  rw [roomLessThan_iff_key] at h2 ⊢
  exact lt_of_le_of_lt (le_of_not_lt h1) h2

/-- Transitivity of the group comparator. -/
theorem groupLessThan_trans {tagsOrder : List String} {a b c : String}
    (h1 : groupLessThan tagsOrder a b = true) (h2 : groupLessThan tagsOrder b c = true) :
    groupLessThan tagsOrder a c = true := by
  rw [groupLessThan_iff_key] at h1 h2 ⊢
  exact lt_trans h1 h2

/-- The strict-weak-order glue of the group comparator. -/
theorem groupLessThan_mono {tagsOrder : List String} {a b v : String}
    (h1 : groupLessThan tagsOrder b a = false) (h2 : groupLessThan tagsOrder b v = true) :
    groupLessThan tagsOrder a v = true := by
  rw [groupLessThan_eq_false_iff] at h1
  rw [groupLessThan_iff_key] at h2 ⊢
  exact lt_of_le_of_lt (le_of_not_lt h1) h2

/-- Distinct captions are always strictly comparable. -/
theorem groupLessThan_connex {tagsOrder : List String} {g t : String}
    (h : groupLessThan tagsOrder g t = false) (hne : g ≠ t) :
    groupLessThan tagsOrder t g = true := by
  rw [groupLessThan_eq_false_iff] at h
  rw [groupLessThan_iff_key]
  refine lt_of_le_of_ne (le_of_not_lt h) (fun he => hne ?_)
  have := toLex.injective he
  exact (Prod.mk.injEq _ _ _ _).mp this |>.2.symm

theorem groupLessThan_irrefl (tagsOrder : List String) (c : String) :
    groupLessThan tagsOrder c c = false := by
  rw [groupLessThan_eq_false_iff]
  exact lt_irrefl _

/-! ## Characterisation of the modelled `std::lower_bound`

On a range that is partitioned for the comparator (which a sorted range is),
the binary search returns the first position where the comparator fails. -/

theorem lbAux_bounds (comp : α → Bool) (xs : List α) :
    ∀ fuel len first, len ≤ fuel →
      first ≤ lbAux comp xs fuel first len ∧ lbAux comp xs fuel first len ≤ first + len := by
  intro fuel
  induction fuel with
  | zero =>
    intro len first hle
    simp [lbAux]
  | succ fuel ih =>
    intro len first hle
    rw [lbAux]
    by_cases h0 : len = 0
    · simp [h0]
    · rw [if_neg h0]
      have hhalf : len / 2 < len := Nat.div_lt_self (Nat.pos_of_ne_zero h0) one_lt_two
      rcases hmid : xs[first + len / 2]? with _ | mid
      · simp [hmid]
      · simp only [hmid]
        by_cases hc : comp mid
        · rw [if_pos hc]
          have := ih (len - len / 2 - 1) (first + len / 2 + 1) (by omega)
          omega
        · rw [if_neg hc]
          have := ih (len / 2) first (by omega)
          omega

theorem lbAux_spec (comp : α → Bool) (xs : List α)
    (mono : ∀ i j (hi : i < xs.length) (hj : j < xs.length), i ≤ j →
      comp xs[j] = true → comp xs[i] = true) :
    ∀ fuel len first, len ≤ fuel → first + len ≤ xs.length →
    (∀ i (hi : i < xs.length), i < first → comp xs[i] = true) →
    (∀ i (hi : i < xs.length), first + len ≤ i → comp xs[i] = false) →
    ∀ i (hi : i < xs.length), (comp xs[i] = true ↔ i < lbAux comp xs fuel first len) := by
  intro fuel
  induction fuel with
  | zero =>
    intro len first hfuel hlen hpre hpost i hi
    have h0 : len = 0 := by omega
    subst h0
    simp only [lbAux]
    constructor
    · intro hc
      by_contra hge
      push_neg at hge
      have := hpost i hi (by omega)
      rw [this] at hc
      cases hc
    · intro hlt
      exact hpre i hi hlt
  | succ fuel ih =>
    intro len first hfuel hlen hpre hpost i hi
    rw [lbAux]
    by_cases h0 : len = 0
    · subst h0
      rw [if_pos rfl]
      constructor
      · intro hc
        by_contra hge
        push_neg at hge
        have := hpost i hi (by omega)
        rw [this] at hc
        cases hc
      · intro hlt
        exact hpre i hi hlt
    · rw [if_neg h0]
      have hhalf : len / 2 < len := Nat.div_lt_self (Nat.pos_of_ne_zero h0) one_lt_two
      have hmidlt : first + len / 2 < xs.length := by omega
      split
      · next hmid =>
        rw [List.getElem?_eq_getElem hmidlt] at hmid
        cases hmid
      · next mid hmid =>
        have hmid' : xs[first + len / 2] = mid := by
          rw [List.getElem?_eq_getElem hmidlt] at hmid
          exact Option.some.inj hmid
        by_cases hc : comp mid
        · rw [if_pos hc]
          refine ih (len - len / 2 - 1) (first + len / 2 + 1) (by omega)
            (by omega) ?_ ?_ i hi
          · intro k hk hklt
            exact mono k (first + len / 2) hk hmidlt (by omega) (hmid' ▸ hc)
          · intro k hk hge
            exact hpost k hk (by omega)
        · rw [if_neg hc]
          refine ih (len / 2) first (by omega) (by omega) hpre ?_ i hi
          intro k hk hge
          by_contra hk'
          have hk'' : comp xs[k] = true := by
            cases hck : comp xs[k]
            · exact absurd hck hk'
            · rfl
          have := mono (first + len / 2) k hmidlt hk hge hk''
          rw [hmid'] at this
          exact hc (by simpa using this)

theorem lowerBoundPos_le (comp : α → Bool) (xs : List α) :
    lowerBoundPos comp xs ≤ xs.length := by
  have := lbAux_bounds comp xs xs.length xs.length 0 (le_refl _)
  simpa [lowerBoundPos] using this.2

theorem lowerBoundPos_spec (comp : α → Bool) (xs : List α)
    (mono : ∀ i j (hi : i < xs.length) (hj : j < xs.length), i ≤ j →
      comp xs[j] = true → comp xs[i] = true) :
    ∀ i (hi : i < xs.length), (comp xs[i] = true ↔ i < lowerBoundPos comp xs) := by
  intro i hi
  exact lbAux_spec comp xs mono xs.length xs.length 0 (le_refl _) (by omega)
    (fun k hk h => by omega) (fun k hk h => by omega) i hi

/-! ## The sortedness invariant -/

/-- The group list is sorted by `groupLessThan` (strictly: the comparator
holds for every earlier/later pair, which also rules out duplicate
captions). -/
def SortedGroups (tagsOrder : List String) (gs : List RoomGroup) : Prop :=
  gs.Pairwise (fun a b => groupLessThan tagsOrder a.caption b.caption = true)

/-- A group's rooms are sorted by the room comparator for its caption:
no later room compares strictly below an earlier one. -/
def SortedRooms (g : RoomGroup) : Prop :=
  g.rooms.Pairwise (fun a b => roomLessThan g.caption b a = false)

/-- The sortedness invariant of claim C1: groups sorted by the group
comparator, every group's rooms sorted by its room comparator. -/
def SortedModel (tagsOrder : List String) (gs : List RoomGroup) : Prop :=
  SortedGroups tagsOrder gs ∧ ∀ g ∈ gs, SortedRooms g

instance (tagsOrder : List String) (gs : List RoomGroup) :
    Decidable (SortedModel tagsOrder gs) := by
  unfold SortedModel SortedGroups SortedRooms
  infer_instance

/-- In a room-sorted group, the comparator against a fixed room is monotone
along the list, so the list is partitioned for the binary search. -/
theorem roomComp_mono (g : RoomGroup) (r : Room) (hs : SortedRooms g) :
    ∀ i j (hi : i < g.rooms.length) (hj : j < g.rooms.length), i ≤ j →
      roomLessThan g.caption (g.rooms[j]) r = true →
      roomLessThan g.caption (g.rooms[i]) r = true := by
  intro i j hi hj hij hcomp
  rcases Nat.eq_or_lt_of_le hij with rfl | hlt
  · exact hcomp
  · have hpair := (List.pairwise_iff_getElem.mp hs) i j hi hj hlt
    exact roomLessThan_mono hpair hcomp

/-- In a caption-sorted group list, the group comparator against a fixed
caption is monotone along the list. -/
theorem groupComp_mono (tagsOrder : List String) (gs : List RoomGroup) (cap : String)
    (hs : SortedGroups tagsOrder gs) :
    ∀ i j (hi : i < gs.length) (hj : j < gs.length), i ≤ j →
      groupLessThan tagsOrder (gs[j]).caption cap = true →
      groupLessThan tagsOrder (gs[i]).caption cap = true := by
  intro i j hi hj hij hcomp
  rcases Nat.eq_or_lt_of_le hij with rfl | hlt
  · exact hcomp
  · have hpair := (List.pairwise_iff_getElem.mp hs) i j hi hj hlt
    exact groupLessThan_trans hpair hcomp

/-- The lower bound for a room in a room-sorted group: every earlier room
compares below `r`, no room from the position on does. -/
theorem lowerBoundRoomPos_spec (g : RoomGroup) (r : Room) (hs : SortedRooms g) :
    ∀ i (hi : i < g.rooms.length),
      (roomLessThan g.caption (g.rooms[i]) r = true ↔ i < lowerBoundRoomPos g r) := by
  intro i hi
  unfold lowerBoundRoomPos
  exact lowerBoundPos_spec (fun x => roomLessThan g.caption x r) g.rooms
    (fun i j hi hj hij h => roomComp_mono g r hs i j hi hj hij h) i hi

theorem lowerBoundRoomPos_le (g : RoomGroup) (r : Room) :
    lowerBoundRoomPos g r ≤ g.rooms.length := by
  unfold lowerBoundRoomPos
  exact lowerBoundPos_le _ _

/-- The lower bound for a caption in a caption-sorted group list. -/
theorem lowerBoundGroupPos_spec (tagsOrder : List String) (gs : List RoomGroup)
    (cap : String) (hs : SortedGroups tagsOrder gs) :
    ∀ i (hi : i < gs.length),
      (groupLessThan tagsOrder (gs[i]).caption cap = true ↔
        i < lowerBoundGroupPos tagsOrder gs cap) := by
  intro i hi
  unfold lowerBoundGroupPos
  exact lowerBoundPos_spec (fun g => groupLessThan tagsOrder g.caption cap) gs
    (fun i j hi hj hij h => groupComp_mono tagsOrder gs cap hs i j hi hj hij h) i hi

theorem lowerBoundGroupPos_le (tagsOrder : List String) (gs : List RoomGroup)
    (cap : String) : lowerBoundGroupPos tagsOrder gs cap ≤ gs.length := by
  unfold lowerBoundGroupPos
  exact lowerBoundPos_le _ _

/-! ## Sorted insertion -/

theorem insertIdx_eq_take_cons_drop (a : α) :
    ∀ (n : Nat) (l : List α), n ≤ l.length →
      l.insertIdx n a = l.take n ++ a :: l.drop n
  | 0, l, _ => rfl
  | n + 1, [], h => by simp at h
  | n + 1, x :: xs, h => by
    simp only [List.insertIdx_succ_cons, List.take_succ_cons, List.drop_succ_cons,
      List.cons_append, List.cons.injEq, true_and]
    exact insertIdx_eq_take_cons_drop a n xs (by simpa using h)

theorem pairwise_insertIdx {R : α → α → Prop} {l : List α} {n : Nat} {a : α}
    (hn : n ≤ l.length) (hl : l.Pairwise R)
    (h1 : ∀ x ∈ l.take n, R x a) (h2 : ∀ y ∈ l.drop n, R a y) :
    (l.insertIdx n a).Pairwise R := by
  rw [insertIdx_eq_take_cons_drop a n l hn]
  have hdec := hl
  rw [← List.take_append_drop n l, List.pairwise_append] at hdec
  obtain ⟨ht, hd, hcross⟩ := hdec
  rw [List.pairwise_append]
  refine ⟨ht, ?_, ?_⟩
  · rw [List.pairwise_cons]
    exact ⟨h2, hd⟩
  · intro x hx y hy
    rcases List.mem_cons.mp hy with rfl | hy
    · exact h1 x hx
    · exact hcross x hx y hy

/-- Inserting a room at its lower-bound position keeps the group sorted. -/
theorem sortedRooms_insert (g : RoomGroup) (r : Room) (hs : SortedRooms g) :
    SortedRooms { g with rooms := g.rooms.insertIdx (lowerBoundRoomPos g r) r } := by
  unfold SortedRooms at hs ⊢
  simp only []
  refine pairwise_insertIdx (lowerBoundRoomPos_le g r) hs ?_ ?_
  · intro x hx
    obtain ⟨i, hi, hix⟩ := List.getElem_of_mem hx
    have hilt : i < lowerBoundRoomPos g r := by
      have := List.length_take (lowerBoundRoomPos g r) g.rooms
      omega
    have hig : i < g.rooms.length := lt_of_lt_of_le hilt (lowerBoundRoomPos_le g r)
    have : x = g.rooms[i] := by
      rw [← hix, List.getElem_take]
    subst this
    have hcomp := (lowerBoundRoomPos_spec g r hs i hig).mpr hilt
    exact roomLessThan_asymm hcomp
  · intro y hy
    obtain ⟨i, hi, hiy⟩ := List.getElem_of_mem hy
    have hig : lowerBoundRoomPos g r + i < g.rooms.length := by
      have := List.length_drop (lowerBoundRoomPos g r) g.rooms
      omega
    have : y = g.rooms[lowerBoundRoomPos g r + i] := by
      rw [← hiy, List.getElem_drop]
    subst this
    by_contra hcomp
    have hcomp' : roomLessThan g.caption (g.rooms[lowerBoundRoomPos g r + i]) r = true := by
      cases hc : roomLessThan g.caption (g.rooms[lowerBoundRoomPos g r + i]) r
      · exact absurd hc hcomp
      · rfl
    have := (lowerBoundRoomPos_spec g r hs _ hig).mp hcomp'
    omega

/-- The caption at a position at or past the lower bound is never `cap`
unless it is at the lower bound itself. -/
theorem caption_ne_of_past_lb (tagsOrder : List String) (gs : List RoomGroup)
    (cap : String) (hs : SortedGroups tagsOrder gs)
    (hne : (gs[lowerBoundGroupPos tagsOrder gs cap]?).map RoomGroup.caption ≠ some cap) :
    ∀ k (hk : k < gs.length), lowerBoundGroupPos tagsOrder gs cap ≤ k →
      (gs[k]).caption ≠ cap := by
  intro k hk hle hcap
  rcases Nat.eq_or_lt_of_le hle with rfl | hlt
  · rw [List.getElem?_eq_getElem hk] at hne
    exact hne (by simp [hcap])
  · have hplt : lowerBoundGroupPos tagsOrder gs cap < gs.length := lt_trans hlt hk
    have hpair := (List.pairwise_iff_getElem.mp hs) _ k hplt hk hlt
    rw [hcap] at hpair
    have := (lowerBoundGroupPos_spec tagsOrder gs cap hs _ hplt).mp hpair
    omega

/-- Inserting a fresh empty group at the caption's lower-bound position keeps
the group list sorted, provided the branch condition of `tryInsertGroup`
holds (no group with that caption sits at the lower bound). -/
theorem sortedGroups_insert (tagsOrder : List String) (gs : List RoomGroup) (cap : String)
    (hs : SortedGroups tagsOrder gs)
    (hne : (gs[lowerBoundGroupPos tagsOrder gs cap]?).map RoomGroup.caption ≠ some cap) :
    SortedGroups tagsOrder
      (gs.insertIdx (lowerBoundGroupPos tagsOrder gs cap) ⟨cap, []⟩) := by
  unfold SortedGroups at hs ⊢
  refine pairwise_insertIdx (lowerBoundGroupPos_le tagsOrder gs cap) hs ?_ ?_
  · intro x hx
    obtain ⟨i, hi, hix⟩ := List.getElem_of_mem hx
    have hilt : i < lowerBoundGroupPos tagsOrder gs cap := by
      have := List.length_take (lowerBoundGroupPos tagsOrder gs cap) gs
      omega
    have hig : i < gs.length := lt_of_lt_of_le hilt (lowerBoundGroupPos_le tagsOrder gs cap)
    have hxi : x = gs[i] := by
      rw [← hix, List.getElem_take]
    subst hxi
    exact (lowerBoundGroupPos_spec tagsOrder gs cap hs i hig).mpr hilt
  · intro y hy
    obtain ⟨i, hi, hiy⟩ := List.getElem_of_mem hy
    have hig : lowerBoundGroupPos tagsOrder gs cap + i < gs.length := by
      have := List.length_drop (lowerBoundGroupPos tagsOrder gs cap) gs
      omega
    have hyi : y = gs[lowerBoundGroupPos tagsOrder gs cap + i] := by
      rw [← hiy, List.getElem_drop]
    subst hyi
    have hccomp : groupLessThan tagsOrder
        (gs[lowerBoundGroupPos tagsOrder gs cap + i]).caption cap = false := by
      cases hc : groupLessThan tagsOrder
          (gs[lowerBoundGroupPos tagsOrder gs cap + i]).caption cap
      · rfl
      · have := (lowerBoundGroupPos_spec tagsOrder gs cap hs _ hig).mp hc
        omega
    have hcne := caption_ne_of_past_lb tagsOrder gs cap hs hne _ hig (by omega)
    exact groupLessThan_connex hccomp hcne

/-- Replacing one group's room list (keeping its caption) preserves the
sortedness of the group list. -/
theorem sortedGroups_set_rooms (tagsOrder : List String) (gs : List RoomGroup)
    (i : Nat) (rooms' : List Room) (hi : i < gs.length)
    (hs : SortedGroups tagsOrder gs) :
    SortedGroups tagsOrder (gs.set i { gs[i] with rooms := rooms' }) := by
  unfold SortedGroups at hs ⊢
  rw [List.pairwise_iff_getElem] at hs ⊢
  intro a b ha hb hab
  simp only [List.length_set] at ha hb
  have hofs := hs a b ha hb hab
  rcases eq_or_ne i a with rfl | hia <;> rcases eq_or_ne i b with rfl | hib <;>
    simp_all [List.getElem_set]

/-! ## Preservation of the sortedness invariant -/

theorem sortedModel_tryInsertGroup (tagsOrder : List String) (gs : List RoomGroup)
    (cap : String) (notify : Bool) (h : SortedModel tagsOrder gs) :
    SortedModel tagsOrder (tryInsertGroup tagsOrder gs cap notify).1 := by
  unfold tryInsertGroup
  by_cases hc : (gs[lowerBoundGroupPos tagsOrder gs cap]?).map RoomGroup.caption = some cap
  · simpa [hc] using h
  · rw [if_neg hc]
    simp only []
    constructor
    · exact sortedGroups_insert tagsOrder gs cap h.1 hc
    · intro g hg
      rcases (List.mem_insertIdx (lowerBoundGroupPos_le tagsOrder gs cap)).mp hg with rfl | hg
      · exact List.Pairwise.nil
      · exact h.2 g hg

theorem sortedModel_insertRoomToGroup (tagsOrder : List String) (gs : List RoomGroup)
    (cap : String) (r : Room) (notify : Bool) (h : SortedModel tagsOrder gs) :
    SortedModel tagsOrder (insertRoomToGroup tagsOrder gs cap r notify).1 := by
  unfold insertRoomToGroup
  have h1 := sortedModel_tryInsertGroup tagsOrder gs cap notify h
  set t := tryInsertGroup tagsOrder gs cap notify with ht
  rcases hg : t.1[t.2.1]? with _ | g
  · simpa [hg] using h1
  · obtain ⟨hgl, hge⟩ := List.getElem?_eq_some.mp hg
    by_cases hr : g.rooms[lowerBoundRoomPos g r]? = some r
    · simp only [hg, hr]
      simpa using h1
    · simp only [hg, if_neg hr]
      constructor
      · have := sortedGroups_set_rooms tagsOrder t.1 t.2.1
          (g.rooms.insertIdx (lowerBoundRoomPos g r) r) hgl h1.1
        rwa [hge] at this
      · intro g' hg'
        rcases List.mem_or_eq_of_mem_set hg' with hmem | rfl
        · exact h1.2 g' hmem
        · exact sortedRooms_insert g r (h1.2 g (hge ▸ List.getElem_mem hgl))

/-- The state component of `insertRoomToGroups` is the plain fold of the
state component of the single-caption step. -/
theorem insertRoomToGroups_fst (tagsOrder : List String) (r : Room) (notify : Bool) :
    ∀ (caps : List String) (gs : List RoomGroup) (ev : List Event),
      (caps.foldl (fun acc cap =>
        let s := insertRoomToGroup tagsOrder acc.1 cap r notify
        (s.1, acc.2 ++ s.2)) (gs, ev)).1
      = caps.foldl (fun gs cap => (insertRoomToGroup tagsOrder gs cap r notify).1) gs := by
  intro caps
  induction caps with
  | nil => intro gs ev; rfl
  | cons c cs ih => intro gs ev; exact ih _ _

theorem sortedModel_insertRoomToGroups (tagsOrder : List String) (caps : List String)
    (r : Room) (notify : Bool) :
    ∀ (gs : List RoomGroup), SortedModel tagsOrder gs →
      SortedModel tagsOrder (insertRoomToGroups tagsOrder gs caps r notify).1 := by
  unfold insertRoomToGroups
  intro gs h
  rw [insertRoomToGroups_fst]
  induction caps generalizing gs with
  | nil => exact h
  | cons c cs ih =>
    rw [List.foldl_cons]
    exact ih _ (sortedModel_insertRoomToGroup tagsOrder gs c r notify h)

theorem sortedModel_insertRoom (tagsOrder : List String) (gs : List RoomGroup)
    (r : Room) (notify : Bool) (h : SortedModel tagsOrder gs) :
    SortedModel tagsOrder (insertRoom tagsOrder gs r notify).1 :=
  sortedModel_insertRoomToGroups tagsOrder (groupsOf r) r notify gs h

theorem sortedModel_doRemoveRoom (tagsOrder : List String) (gs : List RoomGroup)
    (gPos rPos : Nat) (h : SortedModel tagsOrder gs) :
    SortedModel tagsOrder (doRemoveRoom gs gPos rPos).1 := by
  unfold doRemoveRoom
  rcases hg : gs[gPos]? with _ | g
  · simpa using h
  · obtain ⟨hgl, hge⟩ := List.getElem?_eq_some.mp hg
    by_cases hrp : rPos < g.rooms.length
    · simp only [if_pos hrp]
      have hset : SortedModel tagsOrder
          (gs.set gPos { g with rooms := g.rooms.eraseIdx rPos }) := by
        constructor
        · have := sortedGroups_set_rooms tagsOrder gs gPos (g.rooms.eraseIdx rPos) hgl h.1
          rwa [hge] at this
        · intro g' hg'
          rcases List.mem_or_eq_of_mem_set hg' with hmem | rfl
          · exact h.2 g' hmem
          · exact (h.2 g (hge ▸ List.getElem_mem hgl)).sublist
              (List.eraseIdx_sublist g.rooms rPos)
      by_cases hemp : (g.rooms.eraseIdx rPos).isEmpty
      · simp only [hemp, if_pos]
        exact ⟨hset.1.sublist (List.eraseIdx_sublist _ gPos),
               fun g' hg' => hset.2 g' ((List.eraseIdx_sublist _ gPos).mem hg')⟩
      · simpa [hemp] using hset
    · simpa [hrp] using h

theorem sortedModel_deleteRoom (tagsOrder : List String) (gs : List RoomGroup)
    (r : Room) (h : SortedModel tagsOrder gs) :
    SortedModel tagsOrder (deleteRoom tagsOrder gs r).1 := by
  unfold deleteRoom
  generalize (groupsOf r) = caps
  have : ∀ (caps : List String) (acc : List RoomGroup × List Event),
      SortedModel tagsOrder acc.1 →
      SortedModel tagsOrder ((caps.foldl (fun acc cap =>
        match indexOfRoom tagsOrder acc.1 cap r with
        | none => acc
        | some p =>
          let s := doRemoveRoom acc.1 p.1 p.2
          (s.1, acc.2 ++ s.2)) acc).1) := by
    intro caps
    induction caps with
    | nil => intro acc hacc; exact hacc
    | cons c cs ih =>
      intro acc hacc
      rw [List.foldl_cons]
      rcases hio : indexOfRoom tagsOrder acc.1 c r with _ | p
      · exact ih acc hacc
      · exact ih _ (sortedModel_doRemoveRoom tagsOrder acc.1 p.1 p.2 hacc)
  exact this caps (gs, []) h

theorem sortedModel_rebuild (tagsOrder : List String) (rs : List Room) :
    SortedModel tagsOrder (rebuildGroups tagsOrder rs) := by
  unfold rebuildGroups
  have : ∀ (rs : List Room) (gs : List RoomGroup), SortedModel tagsOrder gs →
      SortedModel tagsOrder (rs.foldl (fun gs r => (insertRoom tagsOrder gs r false).1) gs) := by
    intro rs
    induction rs with
    | nil => intro gs h; exact h
    | cons r rs ih =>
      intro gs h
      rw [List.foldl_cons]
      exact ih _ (sortedModel_insertRoom tagsOrder gs r false h)
  exact this rs [] ⟨List.Pairwise.nil, by simp⟩

theorem sortedModel_addConnection (tagsOrder : List String) (m : Model) (conn : Nat)
    (roomMap : List Room) (h : SortedModel tagsOrder m.groups) :
    SortedModel tagsOrder (addConnection tagsOrder m conn roomMap).1.groups := by
  unfold addConnection
  simp only []
  have : ∀ (rs : List Room) (acc : Model), SortedModel tagsOrder acc.groups →
      SortedModel tagsOrder ((rs.foldl (fun acc r =>
        { acc with groups := (insertRoom tagsOrder acc.groups r false).1 }) acc).groups) := by
    intro rs
    induction rs with
    | nil => intro acc hacc; exact hacc
    | cons r rs ih =>
      intro acc hacc
      rw [List.foldl_cons]
      exact ih _ (sortedModel_insertRoom tagsOrder acc.groups r false hacc)
  exact this roomMap _ h

theorem sortedModel_deleteConnection (tagsOrder : List String) (m : Model) (conn : Nat)
    (h : SortedModel tagsOrder m.groups) :
    SortedModel tagsOrder (deleteConnection m conn).1.groups := by
  unfold deleteConnection
  by_cases hc : conn ∈ m.connections
  · simp only [if_pos hc]
    constructor
    · have hsg := h.1
      unfold SortedGroups at hsg ⊢
      refine List.Pairwise.sublist (List.filter_sublist _) ?_
      rw [List.pairwise_map]
      exact hsg.imp (fun hx => hx)
    · intro g hg
      have hg' := List.mem_of_mem_filter hg
      rw [List.mem_map] at hg'
      obtain ⟨g0, hg0, rfl⟩ := hg'
      have hsr := h.2 g0 hg0
      unfold SortedRooms at hsr ⊢
      exact hsr.sublist (List.filter_sublist _)
  · simpa [hc] using h

/-! ## Concrete instances used by counterexamples and witnesses -/

/-- A favourite room with order value 1. -/
def exRoomA : Room := ⟨"!a", [(FavouriteTag, some 1)], false, 0⟩

/-- A favourite room with order value 2. -/
def exRoomB : Room := ⟨"!b", [(FavouriteTag, some 2)], false, 0⟩

/-- A favourite room with order value 3. -/
def exRoomC : Room := ⟨"!c", [(FavouriteTag, some 3)], false, 0⟩

/-- `exRoomC` after a tag change that moves it to the front (order 0). -/
def exRoomC0 : Room := ⟨"!c", [(FavouriteTag, some 0)], false, 0⟩

/-- A sorted one-group model listing the three favourite rooms. -/
def exGroups : List RoomGroup := [⟨FavouriteTag, [exRoomA, exRoomB, exRoomC]⟩]

/-- C1 counterexample input: the sorted favourites group. -/
def exModel : Model := ⟨exGroups, [0]⟩

/-- Two direct-chat rooms for the same Matrix room id, held by two different
connections (accounts): the comparator for the direct-chat group considers
them equivalent (no order values, equal ids). -/
def exTwinA : Room := ⟨"!x", [], true, 0⟩

/-- The second account's room object for the same room id as `exTwinA`. -/
def exTwinB : Room := ⟨"!x", [], true, 1⟩

/-- The direct-chat group holding both twins — the state the model reaches
after inserting `exTwinA` and then `exTwinB`. -/
def exTwinGroups : List RoomGroup := [⟨DirectChat, [exTwinB, exTwinA]⟩]

/-! ## C1 -/

set_option maxRecDepth 100000 in
/-- C1, counterexample: on the sorted model `exGroups`, changing room `!c`'s
favourite order from 3 to 0 runs the tag-change handler
(`prepareToUpdateGroups` + `updateGroups`), after which the group is no
longer sorted for the room comparator — `std::move(oldIt, oldIt+1, newIt)`
overwrites the room at the destination instead of rotating, leaving the
group as `[!c, !b, !c]`. -/
theorem C1_counterexample :
    SortedModel DefaultTagsOrder exGroups ∧
    ¬ SortedModel DefaultTagsOrder
        (tagsChange DefaultTagsOrder exGroups exRoomC exRoomC0).1 := by
  decide

/-- C1 (amended): the sortedness invariant — groups sorted by
`groupLessThan`, each group's rooms sorted by the comparator for its caption —
is preserved by `addConnection`, `deleteConnection`, `insertRoom`,
`deleteRoom`, and by the full rebuild that `replaceRoom` and `setOrder`
perform (`rebuildGroups` holds it unconditionally).  The tag-change handler
`updateGroups` is excluded: it can break room sortedness (see
`C1_counterexample`). -/
theorem C1_sortedness (tagsOrder : List String) (m : Model) (r : Room)
    (conn : Nat) (roomMap rs : List Room) (h : SortedModel tagsOrder m.groups) :
    SortedModel tagsOrder (addConnection tagsOrder m conn roomMap).1.groups ∧
    SortedModel tagsOrder (deleteConnection m conn).1.groups ∧
    SortedModel tagsOrder (insertRoom tagsOrder m.groups r true).1 ∧
    SortedModel tagsOrder (deleteRoom tagsOrder m.groups r).1 ∧
    SortedModel tagsOrder (rebuildGroups tagsOrder rs) :=
  ⟨sortedModel_addConnection tagsOrder m conn roomMap h,
   sortedModel_deleteConnection tagsOrder m conn h,
   sortedModel_insertRoom tagsOrder m.groups r true h,
   sortedModel_deleteRoom tagsOrder m.groups r h,
   sortedModel_rebuild tagsOrder rs⟩

set_option maxRecDepth 100000 in
/-- C1, witness: `C1_sortedness` applied to the concrete sorted model
`exModel`. -/
theorem C1_witness :
    SortedModel DefaultTagsOrder exModel.groups ∧
    (SortedModel DefaultTagsOrder
        (addConnection DefaultTagsOrder exModel 1 [exTwinA]).1.groups ∧
     SortedModel DefaultTagsOrder (deleteConnection exModel 1).1.groups ∧
     SortedModel DefaultTagsOrder
        (insertRoom DefaultTagsOrder exModel.groups exRoomC0 true).1 ∧
     SortedModel DefaultTagsOrder (deleteRoom DefaultTagsOrder exModel.groups exRoomC0).1 ∧
     SortedModel DefaultTagsOrder (rebuildGroups DefaultTagsOrder [exRoomB, exRoomA])) :=
  ⟨by decide, C1_sortedness DefaultTagsOrder exModel exRoomC0 1 [exTwinA] [exRoomB, exRoomA]
    (by decide)⟩

/-! ## C5 and C7: the in-group "move" on tag change -/

/-- A favourite room with order value 10. -/
def exRoomP : Room := ⟨"!p", [(FavouriteTag, some 10)], false, 0⟩

/-- A favourite room with order value 20. -/
def exRoomQ : Room := ⟨"!q", [(FavouriteTag, some 20)], false, 0⟩

/-- A favourite room with order value 30. -/
def exRoomR : Room := ⟨"!r", [(FavouriteTag, some 30)], false, 0⟩

/-- `exRoomR` after a tag change to order 5 (new lower-bound position 0). -/
def exRoomR5 : Room := ⟨"!r", [(FavouriteTag, some 5)], false, 0⟩

/-- `exRoomR` after a tag change to order 15 (new lower-bound position 1). -/
def exRoomR15 : Room := ⟨"!r", [(FavouriteTag, some 15)], false, 0⟩

/-- The sorted favourites group `[!p, !q, !r]`. -/
def exGroupsPQR : List RoomGroup := [⟨FavouriteTag, [exRoomP, exRoomQ, exRoomR]⟩]

set_option maxRecDepth 100000 in
/-- C5: evaluating the tag-change handler at the failing input.  Room `!r`'s
favourite order changes from 30 to 5; its cached position is 2 and its new
lower-bound position is 0, so `updateGroups` announces a move of row 2 to
row 0 — but `std::move(oldIt, oldIt + 1, newIt)` merely assigns
`*newIt = *oldIt`, leaving the group as `[!r, !q, !r]`: the room is not moved
in place (the announced move would give `[!r, !p, !q]`), room `!p` is lost
and `!r` is duplicated. -/
theorem C5_move_is_overwrite :
    tagsChange DefaultTagsOrder exGroupsPQR exRoomR exRoomR5 =
      ([⟨FavouriteTag, [exRoomR5, exRoomQ, exRoomR5]⟩],
       [.beginMoveRows (some 0) 2 2 (some 0) 0, .endMoveRows]) ∧
    applyMoveRow [exRoomP, exRoomQ, exRoomR5] 2 0 = [exRoomR5, exRoomP, exRoomQ] := by
  decide

set_option maxRecDepth 100000 in
/-- C7, counterexample: on `exGroupsPQR`, changing `!r`'s order from 30
to 15 emits `beginMoveRows`/`endMoveRows` for row 2 → destination 1, but the
bracketed mutation is not that move: replaying the announced move on the
rows gives `[!p, !r, !q]` while the model ends up with `[!p, !r, !r]`. -/
theorem C7_counterexample :
    (tagsChange DefaultTagsOrder exGroupsPQR exRoomR exRoomR15).2 =
      [.beginMoveRows (some 0) 2 2 (some 0) 1, .endMoveRows] ∧
    (tagsChange DefaultTagsOrder exGroupsPQR exRoomR exRoomR15).1 ≠
      [⟨FavouriteTag, applyMoveRow [exRoomP, exRoomQ, exRoomR15] 2 1⟩] := by
  decide

/-- `doRemoveRoom` never emits a move notification. -/
theorem doRemoveRoom_no_move (gs : List RoomGroup) (gPos rPos : Nat)
    (sp : Option Nat) (f l : Nat) (dp : Option Nat) (d : Nat) :
    Event.beginMoveRows sp f l dp d ∉ (doRemoveRoom gs gPos rPos).2 := by
  unfold doRemoveRoom
  rcases gs[gPos]? with _ | g
  · simp
  · by_cases hrp : rPos < g.rooms.length
    · simp only [if_pos hrp]
      by_cases hemp : (g.rooms.eraseIdx rPos).isEmpty <;> simp [hemp]
    · simp [hrp]

/-- Move notifications produced by the `updateGroups` loop always name a
destination different from the source row. -/
theorem updateGroupsLoop_move_events (tagsOrder : List String) (r : Room) :
    ∀ (cache : List (String × Nat)) (gs : List RoomGroup) (rem : List String)
      (ev : List Event) (sp : Option Nat) (f l : Nat) (dp : Option Nat) (d : Nat),
      Event.beginMoveRows sp f l dp d ∈ (updateGroupsLoop tagsOrder r cache gs rem ev).2.2 →
      Event.beginMoveRows sp f l dp d ∈ ev ∨ d ≠ f := by
  intro cache
  induction cache with
  | nil =>
    intro gs rem ev sp f l dp d h
    exact Or.inl h
  | cons p rest ih =>
    intro gs rem ev sp f l dp d h
    rcases p with ⟨cap, rPos⟩
    rw [updateGroupsLoop] at h
    rcases hf : gs.findIdx? (fun g => g.caption == cap) with _ | gPos
    · simp only [hf] at h
      exact ih gs rem ev sp f l dp d h
    · simp only [hf] at h
      rcases hg : gs[gPos]? with _ | g
      · simp only [hg] at h
        exact ih gs rem ev sp f l dp d h
      · simp only [hg] at h
        by_cases hrem : rem.contains cap
        · rw [if_pos hrem] at h
          rcases ho : g.rooms[rPos]? with _ | oldRoom
          · simp only [ho] at h
            exact ih gs _ ev sp f l dp d h
          · simp only [ho] at h
            by_cases hnp : lowerBoundRoomPos g r = rPos
            · rw [if_pos hnp] at h
              exact ih gs _ ev sp f l dp d h
            · rw [if_neg hnp] at h
              rcases ih _ _ _ sp f l dp d h with hin | hne
              · rcases List.mem_append.mp hin with hin | hin
                · exact Or.inl hin
                · simp only [List.mem_cons, List.not_mem_nil, or_false] at hin
                  rcases hin with he | he
                  · cases he
                    exact Or.inr (fun hdf => hnp hdf)
                  · cases he
              · exact Or.inr hne
        · rw [if_neg hrem] at h
          rcases ih _ _ _ sp f l dp d h with hin | hne
          · rcases List.mem_append.mp hin with hin | hin
            · exact Or.inl hin
            · exact absurd hin (doRemoveRoom_no_move gs gPos rPos sp f l dp d)
          · exact Or.inr hne

/-- C7 (amended): each insertion and removal is announced by a matching
begin/end pair whose range is exactly the performed mutation, and the
tag-change loop emits `beginMoveRows` only when the lower-bound position
differs from the cached one; the mutation bracketed by that move pair,
however, is an overwrite of the destination row, not the announced move
(see `C7_counterexample`). -/
theorem C7_notifications (tagsOrder : List String) (gs : List RoomGroup) (cap : String)
    (r : Room) (gPos rPos : Nat) (cache : List (String × Nat)) (rem : List String) :
    (let t := tryInsertGroup tagsOrder gs cap true
     (t.1 = gs ∧ t.2.2 = []) ∨
       (t.1 = gs.insertIdx t.2.1 ⟨cap, []⟩ ∧
        t.2.2 = [.beginInsertRows none t.2.1 t.2.1, .endInsertRows,
                 .groupAddedSignal t.2.1])) ∧
    (let t := tryInsertGroup tagsOrder gs cap true
     let s := insertRoomToGroup tagsOrder gs cap r true
     (s.1 = t.1 ∧ s.2 = t.2.2) ∨
       (∃ g, t.1[t.2.1]? = some g ∧
         s.1 = t.1.set t.2.1 { g with rooms := g.rooms.insertIdx (lowerBoundRoomPos g r) r } ∧
         s.2 = t.2.2 ++ [.beginInsertRows (some t.2.1) (lowerBoundRoomPos g r)
                           (lowerBoundRoomPos g r), .endInsertRows])) ∧
    ((doRemoveRoom gs gPos rPos = (gs, [])) ∨
      (∃ g, gs[gPos]? = some g ∧ rPos < g.rooms.length ∧
        ((¬ (g.rooms.eraseIdx rPos).isEmpty ∧
          doRemoveRoom gs gPos rPos =
            (gs.set gPos { g with rooms := g.rooms.eraseIdx rPos },
             [.beginRemoveRows (some gPos) rPos rPos, .endRemoveRows])) ∨
         ((g.rooms.eraseIdx rPos).isEmpty ∧
          doRemoveRoom gs gPos rPos =
            ((gs.set gPos { g with rooms := g.rooms.eraseIdx rPos }).eraseIdx gPos,
             [.beginRemoveRows (some gPos) rPos rPos, .endRemoveRows,
              .beginRemoveRows none gPos gPos, .endRemoveRows]))))) ∧
    (∀ (sp : Option Nat) (f l : Nat) (dp : Option Nat) (d : Nat),
      Event.beginMoveRows sp f l dp d ∈ (updateGroupsLoop tagsOrder r cache gs rem []).2.2 →
      d ≠ f) := by
  refine ⟨?_, ?_, ?_, ?_⟩
  · unfold tryInsertGroup
    by_cases hc : (gs[lowerBoundGroupPos tagsOrder gs cap]?).map RoomGroup.caption = some cap
    · rw [if_pos hc]
      exact Or.inl ⟨rfl, rfl⟩
    · rw [if_neg hc]
      exact Or.inr ⟨rfl, rfl⟩
  · simp only []
    unfold insertRoomToGroup
    dsimp only
    split
    · next hg => exact Or.inl ⟨rfl, rfl⟩
    · next g hg =>
      by_cases hr : g.rooms[lowerBoundRoomPos g r]? = some r
      · rw [if_pos hr]
        exact Or.inl ⟨rfl, rfl⟩
      · rw [if_neg hr]
        exact Or.inr ⟨g, hg, rfl, rfl⟩
  · unfold doRemoveRoom
    dsimp only
    split
    · next hg => exact Or.inl rfl
    · next g hg =>
      by_cases hrp : rPos < g.rooms.length
      · rw [if_pos hrp]
        by_cases hemp : (g.rooms.eraseIdx rPos).isEmpty
        · rw [if_pos hemp]
          exact Or.inr ⟨g, hg, hrp, Or.inr ⟨hemp, rfl⟩⟩
        · rw [if_neg hemp]
          exact Or.inr ⟨g, hg, hrp, Or.inl ⟨hemp, rfl⟩⟩
      · rw [if_neg hrp]
        exact Or.inl rfl
  · intro sp f l dp d h
    rcases updateGroupsLoop_move_events tagsOrder r cache gs rem [] sp f l dp d h with hin | hne
    · cases hin
    · exact hne

set_option maxRecDepth 100000 in
/-- C7, witness: `C7_notifications` applied at a concrete input, with its
move-event conjunct instantiated at the move the `exGroupsPQR` tag change
emits (row 2 → destination 1). -/
theorem C7_witness :
    (1 : Nat) ≠ 2 := by
  have h := C7_notifications DefaultTagsOrder
    [⟨FavouriteTag, [exRoomP, exRoomQ, exRoomR15]⟩] FavouriteTag exRoomR15 0 2
    [(FavouriteTag, 2)] [FavouriteTag]
  exact h.2.2.2 (some 0) 2 2 (some 0) 1 (by decide)

/-! ## C2: the groups a room belongs to -/

/-- A room literally tagged `org.qmatrixclient.none` — it is listed under the
untagged group's caption although it has a tag. -/
def exNoneTagged : Room := ⟨"!n", [(Untagged, none)], false, 0⟩

/-- C2, counterexample: a room carrying the literal tag
`org.qmatrixclient.none` is listed under exactly the untagged group, yet it
does have tags — refuting the claim's "exactly when r has no tags and is not
a direct chat". -/
theorem C2_counterexample :
    groupsOf exNoneTagged = [Untagged] ∧
    ¬ (exNoneTagged.tags.isEmpty ∧ exNoneTagged.isDirect = false) := by
  decide

/-- C2 (amended): the set of groups the order assigns to a room is the set
of its tag keys, with the direct-chat group added for direct chats, and the
untagged group standing alone when the room has no tags and is not direct;
conversely, a room listed under exactly the untagged group either has no
tags or literally carries the `org.qmatrixclient.none` tag as its only tag
(and is not direct either way). -/
theorem C2_groups_of_room (r : Room) :
    (groupsOf r).toFinset =
      (if r.tags.isEmpty ∧ r.isDirect = false then {Untagged}
       else (r.tags.map Prod.fst).toFinset ∪
         (if r.isDirect then {DirectChat} else ∅)) ∧
    (r.tags.isEmpty ∧ r.isDirect = false → groupsOf r = [Untagged]) ∧
    (groupsOf r = [Untagged] →
      (r.tags.isEmpty ∧ r.isDirect = false) ∨
      (r.tags.map Prod.fst = [Untagged] ∧ r.isDirect = false)) := by
  refine ⟨?_, ?_, ?_⟩
  · unfold groupsOf
    rcases hd : r.isDirect <;> rcases ht : r.tags with _ | ⟨p, ts⟩ <;>
      simp [List.toFinset_append]
  · rintro ⟨h1, h2⟩
    unfold groupsOf
    rw [List.isEmpty_iff] at h1
    simp [h1, h2]
  · intro h
    unfold groupsOf at h
    rcases hd : r.isDirect
    · rcases ht : r.tags with _ | ⟨q, ts⟩
      · rw [hd, ht] at h
        exact Or.inl ⟨rfl, rfl⟩
      · rw [hd, ht] at h
        simp at h
        exact Or.inr ⟨by simp [h.1, h.2], rfl⟩
    · rcases ht : r.tags with _ | ⟨q, ts⟩
      · rw [hd, ht] at h
        simp at h
        exact absurd h (by decide)
      · rw [hd, ht] at h
        simp at h

/-- C2, witness: a room with no tags that is not direct is listed under
exactly the untagged group. -/
theorem C2_witness : groupsOf ⟨"!w", [], false, 0⟩ = [Untagged] :=
  (C2_groups_of_room ⟨"!w", [], false, 0⟩).2.1 (by decide)

/-! ## C10: deleteTag guards -/

/-- `deleteTag` never mutates the model itself (it only asks the backend). -/
theorem deleteTag_model_unchanged (m : Model) (i : MIdx) : (deleteTag m i).1 = m := by
  unfold deleteTag
  split
  · rfl
  · dsimp only
    split
    · rfl
    · split <;> rfl

/-- C10: `deleteTag` leaves the model unchanged in every case (its direct
effect is only to request tag removals), refuses to act exactly when the
index is not a valid group index, the addressed caption is empty, or the
caption lies in the `org.qmatrixclient.` namespace — and the system group
captions (direct chats, untagged) lie in that namespace, so system groups
can never be deleted through `deleteTag`. -/
theorem C10_deleteTag_guards (m : Model) (i : MIdx) :
    (deleteTag m i).1 = m ∧
    ((deleteTag m i).2 = none ↔
      (isValidGroupIndexB m i = false ∨ groupCaptionAt m i = "" ∨
       strStartsWith (groupCaptionAt m i) "org.qmatrixclient." = true)) ∧
    strStartsWith DirectChat "org.qmatrixclient." = true ∧
    strStartsWith Untagged "org.qmatrixclient." = true := by
  refine ⟨deleteTag_model_unchanged m i, ?_, by decide, by decide⟩
  · unfold deleteTag
    by_cases hv : isValidGroupIndexB m i
    · rw [if_neg (by simp [hv])]
      dsimp only
      by_cases he : groupCaptionAt m i = ""
      · simp [he]
      · rw [if_neg he]
        by_cases hs : strStartsWith (groupCaptionAt m i) "org.qmatrixclient." = true
        · simp [hs, hv]
        · simp only [Bool.not_eq_true] at hs
          simp [hs, hv, he]
    · simp only [Bool.not_eq_true] at hv
      simp [hv]

/-! ## C8: index / parent round trip -/

/-- `index(row, col, {})` agrees with the root-index helper used by
`parent`. -/
theorem mIndex_none_eq_root (m : Model) (row col : Int) :
    mIndex m row col none = mIndexRoot m row col := by
  unfold mIndex mIndexRoot mHasIndex mRowCount
  by_cases h1 : 0 ≤ row <;> by_cases h2 : row < (m.groups.length : Int) <;>
    by_cases h3 : 0 ≤ col <;> by_cases h4 : col < 1 <;>
    simp [h1, h2, h3, h4]

/-- C8: for every row/column pair accepted by `hasIndex` under its parent,
`parent ∘ index` returns the parent the index was created under: a
root-parented (group) index carries internal id `-1` and has the invalid
parent; a room index created under the group index at `gRow` carries that
group ordinal as its internal id, and `parent` reconstructs exactly that
group index.  Each round trip assumes only the acceptance of its own
row/column pair by `hasIndex` under its own parent, so room rows beyond the
group count are covered. -/
theorem C8_index_parent (m : Model) (row col gRow : Int) :
    (mHasIndex m row col none = true →
      mIndex m row col none = some ⟨row.toNat, col.toNat, -1⟩ ∧
      mParent m (mIndex m row col none) = none) ∧
    (mHasIndex m gRow 0 none = true →
      mHasIndex m row col (mIndex m gRow 0 none) = true →
      mIndex m row col (mIndex m gRow 0 none) =
        some ⟨row.toNat, col.toNat, (gRow.toNat : Int)⟩ ∧
      mParent m (mIndex m row col (mIndex m gRow 0 none)) = mIndex m gRow 0 none) := by
  constructor
  · intro hroot
    constructor
    · unfold mIndex
      rw [if_pos hroot]
    · unfold mIndex
      rw [if_pos hroot]
      unfold mParent
      simp
  · intro hg hc
    have hidx : mIndex m gRow 0 none = some ⟨gRow.toNat, 0, -1⟩ := by
      unfold mIndex
      rw [if_pos hg]
      rfl
    have hgbounds : 0 ≤ gRow ∧ gRow < (m.groups.length : Int) := by
      unfold mHasIndex mRowCount at hg
      simp only [Bool.and_eq_true, decide_eq_true_eq] at hg
      exact ⟨hg.1.1.1, hg.1.1.2⟩
    constructor
    · rw [hidx] at hc ⊢
      unfold mIndex
      rw [if_pos hc]
    · rw [hidx] at hc ⊢
      unfold mIndex
      rw [if_pos hc]
      unfold mParent
      have hne : ((gRow.toNat : Int)) ≠ -1 := by omega
      simp only [hne, if_false]
      rw [mIndexRoot]
      rw [if_pos ⟨by omega, by omega, le_refl 0, by omega⟩]
      have h2 : ((gRow.toNat : Int)).toNat = gRow.toNat := by omega
      rw [h2]
      rfl

set_option maxRecDepth 100000 in
/-- C8, witness: the round trip at the concrete model `exModel`: the group
index at row 0, and the room index at row 1 under it — a room row beyond the
group count (the model has one group of three rooms). -/
theorem C8_witness :
    (mHasIndex exModel 0 0 none = true ∧
      (mIndex exModel 0 0 none = some ⟨0, 0, -1⟩ ∧
        mParent exModel (mIndex exModel 0 0 none) = none)) ∧
    (mHasIndex exModel 0 0 none = true ∧
      mHasIndex exModel 1 0 (mIndex exModel 0 0 none) = true ∧
      (mIndex exModel 1 0 (mIndex exModel 0 0 none) = some ⟨1, 0, ((0 : Nat) : Int)⟩ ∧
        mParent exModel (mIndex exModel 1 0 (mIndex exModel 0 0 none)) =
          mIndex exModel 0 0 none)) :=
  ⟨⟨by decide, (C8_index_parent exModel 0 0 0).1 (by decide)⟩,
   ⟨by decide, by decide, (C8_index_parent exModel 1 0 0).2 (by decide) (by decide)⟩⟩

/-! ## C9: no empty groups are retained -/

/-- The no-empty-groups invariant: every group of the model holds at least
one room. -/
def NonemptyGroups (gs : List RoomGroup) : Prop := ∀ g ∈ gs, g.rooms ≠ []

instance (gs : List RoomGroup) : Decidable (NonemptyGroups gs) := by
  unfold NonemptyGroups
  infer_instance

/-- `tryInsertGroup` when the lower-bound position already holds the
caption. -/
theorem tryInsertGroup_found (tagsOrder : List String) (gs : List RoomGroup)
    (cap : String) (notify : Bool)
    (hc : (gs[lowerBoundGroupPos tagsOrder gs cap]?).map RoomGroup.caption = some cap) :
    tryInsertGroup tagsOrder gs cap notify = (gs, lowerBoundGroupPos tagsOrder gs cap, []) := by
  unfold tryInsertGroup
  rw [if_pos hc]

/-- `tryInsertGroup` when the group is missing: a fresh empty group is
inserted at the caption's lower-bound position. -/
theorem tryInsertGroup_created (tagsOrder : List String) (gs : List RoomGroup)
    (cap : String) (notify : Bool)
    (hc : ¬ (gs[lowerBoundGroupPos tagsOrder gs cap]?).map RoomGroup.caption = some cap) :
    tryInsertGroup tagsOrder gs cap notify =
      (gs.insertIdx (lowerBoundGroupPos tagsOrder gs cap) ⟨cap, []⟩,
       lowerBoundGroupPos tagsOrder gs cap,
       if notify then
         [.beginInsertRows none (lowerBoundGroupPos tagsOrder gs cap)
            (lowerBoundGroupPos tagsOrder gs cap), .endInsertRows,
          .groupAddedSignal (lowerBoundGroupPos tagsOrder gs cap)]
       else []) := by
  unfold tryInsertGroup
  rw [if_neg hc]

/-- An element of `(l.insertIdx n e).set n b` is `b` or an element of `l`
(the freshly inserted `e` sits exactly at the replaced position). -/
theorem mem_set_insertIdx {l : List α} {e b x : α} {n : Nat} (hn : n ≤ l.length)
    (hx : x ∈ (l.insertIdx n e).set n b) : x = b ∨ x ∈ l := by
  obtain ⟨k, hk, rfl⟩ := List.getElem_of_mem hx
  have hlen : ((l.insertIdx n e).set n b).length = l.length + 1 := by
    rw [List.length_set, List.length_insertIdx n _ hn]
  by_cases hkn : n = k
  · subst hkn
    left
    exact List.getElem_set_self hk
  · right
    rw [List.getElem_set_ne hkn]
    rcases Nat.lt_or_ge k n with hlt | hge
    · rw [List.getElem_insertIdx_of_lt l e n k hlt (by omega)]
      exact List.getElem_mem _
    · obtain ⟨j, rfl⟩ : ∃ j, k = n + j + 1 := ⟨k - n - 1, by omega⟩
      rw [List.getElem_insertIdx_add_succ l e n j (by omega)]
      exact List.getElem_mem _

/-- An element of `(l.set n b).eraseIdx n` is an element of `l`. -/
theorem mem_eraseIdx_set {l : List α} {b x : α} {n : Nat}
    (hx : x ∈ (l.set n b).eraseIdx n) : x ∈ l := by
  obtain ⟨k, hk, rfl⟩ := List.getElem_of_mem hx
  rw [List.getElem_eraseIdx]
  split
  · next hlt =>
    rw [List.getElem_set_ne (by omega)]
    exact List.getElem_mem _
  · next hge =>
    rw [List.getElem_set_ne (by omega)]
    exact List.getElem_mem _

theorem nonemptyGroups_set {gs : List RoomGroup} {n : Nat} {g' : RoomGroup}
    (h : NonemptyGroups gs) (hg' : g'.rooms ≠ []) : NonemptyGroups (gs.set n g') := by
  intro x hx
  obtain ⟨k, hk, rfl⟩ := List.getElem_of_mem hx
  by_cases hkn : n = k
  · subst hkn
    rw [List.getElem_set_self hk]
    exact hg'
  · rw [List.getElem_set_ne hkn]
    exact h _ (List.getElem_mem _)

theorem nonempty_insertRoomToGroup (tagsOrder : List String) (gs : List RoomGroup)
    (cap : String) (r : Room) (notify : Bool) (h : NonemptyGroups gs) :
    NonemptyGroups (insertRoomToGroup tagsOrder gs cap r notify).1 := by
  unfold insertRoomToGroup
  by_cases hc : (gs[lowerBoundGroupPos tagsOrder gs cap]?).map RoomGroup.caption = some cap
  · rw [tryInsertGroup_found tagsOrder gs cap notify hc]
    dsimp only
    split
    · exact h
    · next g hg =>
      by_cases hr : g.rooms[lowerBoundRoomPos g r]? = some r
      · rw [if_pos hr]
        exact h
      · rw [if_neg hr]
        refine nonemptyGroups_set h ?_
        intro he
        have he' : g.rooms.insertIdx (lowerBoundRoomPos g r) r = [] := he
        have hlen := @List.length_insertIdx Room r (lowerBoundRoomPos g r) g.rooms
          (lowerBoundRoomPos_le g r)
        rw [he'] at hlen
        simp at hlen
  · rw [tryInsertGroup_created tagsOrder gs cap notify hc]
    dsimp only
    have hle := lowerBoundGroupPos_le tagsOrder gs cap
    have hself : (gs.insertIdx (lowerBoundGroupPos tagsOrder gs cap)
        (⟨cap, []⟩ : RoomGroup))[lowerBoundGroupPos tagsOrder gs cap]?
        = some ⟨cap, []⟩ := by
      rw [List.getElem?_eq_getElem (by rw [List.length_insertIdx _ _ hle]; omega)]
      rw [List.getElem_insertIdx_self gs (⟨cap, []⟩ : RoomGroup) _ hle]
    rw [hself]
    dsimp only
    rw [if_neg (by simp [lowerBoundRoomPos, lowerBoundPos, lbAux])]
    intro x hx
    rcases mem_set_insertIdx hle hx with rfl | hmem
    · simp [lowerBoundRoomPos, lowerBoundPos, lbAux]
    · exact h x hmem

theorem nonempty_insertRoomToGroups (tagsOrder : List String) (caps : List String)
    (r : Room) (notify : Bool) :
    ∀ (gs : List RoomGroup), NonemptyGroups gs →
      NonemptyGroups (insertRoomToGroups tagsOrder gs caps r notify).1 := by
  unfold insertRoomToGroups
  intro gs h
  rw [insertRoomToGroups_fst]
  induction caps generalizing gs with
  | nil => exact h
  | cons c cs ih =>
    rw [List.foldl_cons]
    exact ih _ (nonempty_insertRoomToGroup tagsOrder gs c r notify h)

theorem nonempty_doRemoveRoom (gs : List RoomGroup) (gPos rPos : Nat)
    (h : NonemptyGroups gs) : NonemptyGroups (doRemoveRoom gs gPos rPos).1 := by
  unfold doRemoveRoom
  dsimp only
  split
  · exact h
  · next g hg =>
    by_cases hrp : rPos < g.rooms.length
    · rw [if_pos hrp]
      by_cases hemp : (g.rooms.eraseIdx rPos).isEmpty
      · rw [if_pos hemp]
        intro x hx
        exact h x (mem_eraseIdx_set hx)
      · rw [if_neg hemp]
        refine nonemptyGroups_set h ?_
        intro he
        have he' : g.rooms.eraseIdx rPos = [] := he
        rw [he'] at hemp
        exact hemp rfl
    · rw [if_neg hrp]
      exact h

theorem nonempty_deleteRoom (tagsOrder : List String) (gs : List RoomGroup)
    (r : Room) (h : NonemptyGroups gs) :
    NonemptyGroups (deleteRoom tagsOrder gs r).1 := by
  unfold deleteRoom
  generalize (groupsOf r) = caps
  have haux : ∀ (caps : List String) (acc : List RoomGroup × List Event),
      NonemptyGroups acc.1 →
      NonemptyGroups ((caps.foldl (fun acc cap =>
        match indexOfRoom tagsOrder acc.1 cap r with
        | none => acc
        | some p =>
          let s := doRemoveRoom acc.1 p.1 p.2
          (s.1, acc.2 ++ s.2)) acc).1) := by
    intro caps
    induction caps with
    | nil => intro acc hacc; exact hacc
    | cons c cs ih =>
      intro acc hacc
      rw [List.foldl_cons]
      rcases hio : indexOfRoom tagsOrder acc.1 c r with _ | q
      · exact ih acc hacc
      · exact ih _ (nonempty_doRemoveRoom acc.1 q.1 q.2 hacc)
  exact haux caps (gs, []) h

theorem nonempty_updateGroupsLoop (tagsOrder : List String) (r : Room) :
    ∀ (cache : List (String × Nat)) (gs : List RoomGroup) (rem : List String)
      (ev : List Event), NonemptyGroups gs →
      NonemptyGroups (updateGroupsLoop tagsOrder r cache gs rem ev).1 := by
  intro cache
  induction cache with
  | nil =>
    intro gs rem ev h
    exact h
  | cons q rest ih =>
    intro gs rem ev h
    rcases q with ⟨cap, rPos⟩
    rw [updateGroupsLoop]
    rcases hf : gs.findIdx? (fun g => g.caption == cap) with _ | gPos
    · simp only [hf]
      exact ih gs rem ev h
    · simp only [hf]
      rcases hg : gs[gPos]? with _ | g
      · simp only [hg]
        exact ih gs rem ev h
      · simp only [hg]
        by_cases hrem : rem.contains cap
        · rw [if_pos hrem]
          rcases ho : g.rooms[rPos]? with _ | oldRoom
          · simp only [ho]
            exact ih gs _ ev h
          · simp only [ho]
            by_cases hnp : lowerBoundRoomPos g r = rPos
            · rw [if_pos hnp]
              exact ih gs _ ev h
            · rw [if_neg hnp]
              refine ih _ _ _ (nonemptyGroups_set h ?_)
              obtain ⟨hgl, hge⟩ := List.getElem?_eq_some.mp hg
              have hne := h g (hge ▸ List.getElem_mem hgl)
              intro he
              have he' : g.rooms.set (lowerBoundRoomPos g r) oldRoom = [] := he
              have hlen : g.rooms.length = 0 := by
                have hc := congrArg List.length he'
                simpa using hc
              exact hne (List.eq_nil_of_length_eq_zero hlen)
        · rw [if_neg hrem]
          exact ih _ _ _ (nonempty_doRemoveRoom gs gPos rPos h)

theorem nonempty_updateGroups (tagsOrder : List String) (gs : List RoomGroup)
    (cache : List (String × Nat)) (r : Room) (h : NonemptyGroups gs) :
    NonemptyGroups (updateGroups tagsOrder gs cache r).1 := by
  unfold updateGroups
  exact nonempty_insertRoomToGroups tagsOrder _ r true _
    (nonempty_updateGroupsLoop tagsOrder r cache gs _ [] h)

theorem nonempty_tagsChange (tagsOrder : List String) (gs : List RoomGroup)
    (rOld rNew : Room) (h : NonemptyGroups gs) :
    NonemptyGroups (tagsChange tagsOrder gs rOld rNew).1 := by
  unfold tagsChange
  refine nonempty_updateGroups tagsOrder _ _ rNew ?_
  intro x hx
  rw [List.mem_map] at hx
  obtain ⟨g0, hg0, rfl⟩ := hx
  have hne := h g0 hg0
  intro he
  have he' : g0.rooms.map (fun x => if x = rOld then rNew else x) = [] := he
  rw [List.map_eq_nil_iff] at he'
  exact hne he'

theorem nonempty_rebuild (tagsOrder : List String) (rs : List Room) :
    NonemptyGroups (rebuildGroups tagsOrder rs) := by
  unfold rebuildGroups
  have haux : ∀ (rs : List Room) (gs : List RoomGroup), NonemptyGroups gs →
      NonemptyGroups (rs.foldl (fun gs r => (insertRoom tagsOrder gs r false).1) gs) := by
    intro rs
    induction rs with
    | nil =>
      intro gs h
      exact h
    | cons r rs ih =>
      intro gs h
      rw [List.foldl_cons]
      exact ih _ (nonempty_insertRoomToGroups tagsOrder (groupsOf r) r false gs h)
  exact haux rs [] (by intro g hg; cases hg)

theorem nonempty_addConnection (tagsOrder : List String) (m : Model) (conn : Nat)
    (roomMap : List Room) (h : NonemptyGroups m.groups) :
    NonemptyGroups (addConnection tagsOrder m conn roomMap).1.groups := by
  unfold addConnection
  simp only []
  have haux : ∀ (rs : List Room) (acc : Model), NonemptyGroups acc.groups →
      NonemptyGroups ((rs.foldl (fun acc r =>
        { acc with groups := (insertRoom tagsOrder acc.groups r false).1 }) acc).groups) := by
    intro rs
    induction rs with
    | nil =>
      intro acc hacc
      exact hacc
    | cons r rs ih =>
      intro acc hacc
      rw [List.foldl_cons]
      exact ih _ (nonempty_insertRoomToGroups tagsOrder (groupsOf r) r false acc.groups hacc)
  exact haux roomMap _ h

theorem nonempty_deleteConnection (m : Model) (conn : Nat)
    (h : NonemptyGroups m.groups) :
    NonemptyGroups (deleteConnection m conn).1.groups := by
  unfold deleteConnection
  by_cases hc : conn ∈ m.connections
  · simp only [if_pos hc]
    intro g hg
    have hfil := List.of_mem_filter hg
    intro he
    rw [he] at hfil
    simp at hfil
  · simpa [hc] using h

/-- C9: every public operation keeps the model free of empty groups: a group
is created only inside `insertRoomToGroups`, which immediately inserts the
room into it, and the removals (`doRemoveRoom`, `deleteConnection`) drop any
group they empty in the same operation. -/
theorem C9_no_empty_groups (tagsOrder : List String) (m : Model) (r rOld rNew : Room)
    (conn : Nat) (roomMap rs : List Room) (i : MIdx)
    (h : NonemptyGroups m.groups) :
    NonemptyGroups (addConnection tagsOrder m conn roomMap).1.groups ∧
    NonemptyGroups (deleteConnection m conn).1.groups ∧
    NonemptyGroups (insertRoom tagsOrder m.groups r true).1 ∧
    NonemptyGroups (deleteRoom tagsOrder m.groups r).1 ∧
    NonemptyGroups (rebuildGroups tagsOrder rs) ∧
    NonemptyGroups (tagsChange tagsOrder m.groups rOld rNew).1 ∧
    NonemptyGroups (deleteTag m i).1.groups :=
  ⟨nonempty_addConnection tagsOrder m conn roomMap h,
   nonempty_deleteConnection m conn h,
   nonempty_insertRoomToGroups tagsOrder (groupsOf r) r true m.groups h,
   nonempty_deleteRoom tagsOrder m.groups r h,
   nonempty_rebuild tagsOrder rs,
   nonempty_tagsChange tagsOrder m.groups rOld rNew h,
   by
     rw [deleteTag_model_unchanged m i]
     exact h⟩

set_option maxRecDepth 100000 in
/-- C9, witness: `C9_no_empty_groups` applied to the concrete model
`exModel`. -/
theorem C9_witness :
    NonemptyGroups exModel.groups ∧
    (NonemptyGroups (addConnection DefaultTagsOrder exModel 1 [exTwinA]).1.groups ∧
     NonemptyGroups (deleteConnection exModel 1).1.groups ∧
     NonemptyGroups (insertRoom DefaultTagsOrder exModel.groups exRoomC0 true).1 ∧
     NonemptyGroups (deleteRoom DefaultTagsOrder exModel.groups exRoomC0).1 ∧
     NonemptyGroups (rebuildGroups DefaultTagsOrder [exRoomB]) ∧
     NonemptyGroups (tagsChange DefaultTagsOrder exModel.groups exRoomC exRoomC0).1 ∧
     NonemptyGroups (deleteTag exModel none).1.groups) :=
  ⟨by decide,
   C9_no_empty_groups DefaultTagsOrder exModel exRoomC0 exRoomC exRoomC0 1 [exTwinA]
     [exRoomB] none (by decide)⟩

/-! ## C3 and C6: positional lookups under the sorted invariant -/

/-- In a sorted group list, any position holding caption `cap` is the
caption's lower-bound position (so captions are unique). -/
theorem capPos_unique (tagsOrder : List String) (gs : List RoomGroup) (cap : String)
    (hs : SortedGroups tagsOrder gs) (k : Nat) (hk : k < gs.length)
    (hcap : (gs[k]).caption = cap) : k = lowerBoundGroupPos tagsOrder gs cap := by
  have hkge : ¬ k < lowerBoundGroupPos tagsOrder gs cap := by
    intro hlt
    have := (lowerBoundGroupPos_spec tagsOrder gs cap hs k hk).mpr hlt
    rw [hcap] at this
    rw [groupLessThan_irrefl] at this
    cases this
  rcases Nat.eq_or_lt_of_le (Nat.not_lt.mp hkge) with he | hlt
  · exact he.symm
  · exfalso
    have hlb : lowerBoundGroupPos tagsOrder gs cap < gs.length := lt_trans hlt hk
    have hpair := (List.pairwise_iff_getElem.mp hs) _ k hlb hk hlt
    rw [hcap] at hpair
    have := (lowerBoundGroupPos_spec tagsOrder gs cap hs _ hlb).mp hpair
    omega

/-- In a sorted group list, the group with caption `cap` exists exactly when
the lower-bound position holds it. -/
theorem caption_found_iff (tagsOrder : List String) (gs : List RoomGroup) (cap : String)
    (hs : SortedGroups tagsOrder gs) :
    (gs[lowerBoundGroupPos tagsOrder gs cap]?).map RoomGroup.caption = some cap ↔
      cap ∈ gs.map RoomGroup.caption := by
  constructor
  · intro h
    rcases hg : gs[lowerBoundGroupPos tagsOrder gs cap]? with _ | g
    · rw [hg] at h
      cases h
    · rw [hg] at h
      obtain ⟨hgl, hge⟩ := List.getElem?_eq_some.mp hg
      rw [List.mem_map]
      exact ⟨g, hge ▸ List.getElem_mem hgl, Option.some.inj h⟩
  · intro h
    rw [List.mem_map] at h
    obtain ⟨g, hgmem, hgcap⟩ := h
    obtain ⟨k, hk, rfl⟩ := List.getElem_of_mem hgmem
    have hkeq := capPos_unique tagsOrder gs cap hs k hk hgcap
    rw [← hkeq, List.getElem?_eq_getElem hk]
    simp [hgcap]

/-- In a room-sorted group with no distinct room comparator-equivalent to
`r`, a present `r` sits exactly at its lower-bound position. -/
theorem room_found_at_lb (g : RoomGroup) (r : Room) (hs : SortedRooms g)
    (hnt : ∀ x ∈ g.rooms, x ≠ r → roomKey g.caption x ≠ roomKey g.caption r)
    (hmem : r ∈ g.rooms) : g.rooms[lowerBoundRoomPos g r]? = some r := by
  obtain ⟨k, hk, hke⟩ := List.getElem_of_mem hmem
  have hkge : ¬ k < lowerBoundRoomPos g r := by
    intro hlt
    have := (lowerBoundRoomPos_spec g r hs k hk).mpr hlt
    rw [hke] at this
    rw [show roomLessThan g.caption r r = false from by
      rw [roomLessThan_eq_false_iff]; exact lt_irrefl _] at this
    cases this
  have hlbk : lowerBoundRoomPos g r ≤ k := Nat.not_lt.mp hkge
  have hlbl : lowerBoundRoomPos g r < g.rooms.length := lt_of_le_of_lt hlbk hk
  rw [List.getElem?_eq_getElem hlbl]
  refine congrArg some (by_contra fun hne => ?_)
  refine hnt _ (List.getElem_mem hlbl) hne ?_
  have h1 : ¬ roomKey g.caption (g.rooms[lowerBoundRoomPos g r]) < roomKey g.caption r := by
    rw [← roomLessThan_eq_false_iff]
    cases hc : roomLessThan g.caption (g.rooms[lowerBoundRoomPos g r]) r
    · rfl
    · have := (lowerBoundRoomPos_spec g r hs _ hlbl).mp hc
      omega
  have h2 : ¬ roomKey g.caption r < roomKey g.caption (g.rooms[lowerBoundRoomPos g r]) := by
    rcases Nat.eq_or_lt_of_le hlbk with he | hlt
    · exfalso
      subst he
      exact hne hke
    · have hpair := (List.pairwise_iff_getElem.mp hs) _ k hlbl hk hlt
      rw [hke] at hpair
      rw [← roomLessThan_eq_false_iff]
      exact hpair
  exact le_antisymm (le_of_not_lt h2) (le_of_not_lt h1)

set_option maxRecDepth 100000 in
/-- C3, counterexample: on the sorted, duplicate-free direct-chat group
`[exTwinB, exTwinA]` — reachable by inserting the two twin rooms through
`insertRoom` — calling `insertRoomToGroups` for `exTwinA`, which is already
listed in the group, does not leave the group unchanged: the duplicate check
only looks at the lower-bound position, which holds the comparator-equivalent
twin `exTwinB`, so `exTwinA` is inserted a second time. -/
theorem C3_counterexample :
    (insertRoom DefaultTagsOrder (insertRoom DefaultTagsOrder [] exTwinA false).1
        exTwinB false).1 = exTwinGroups ∧
    SortedModel DefaultTagsOrder exTwinGroups ∧
    exTwinA ∈ [exTwinB, exTwinA] ∧
    (insertRoomToGroups DefaultTagsOrder exTwinGroups [DirectChat] exTwinA false).1 =
      [⟨DirectChat, [exTwinA, exTwinB, exTwinA]⟩] := by
  decide

/-- C3 (amended): under the sorted invariant, for each caption handled by
`insertRoomToGroups`: a missing group is created at its sorted position
(keeping the group list sorted) exactly when the caption is absent; the room
is then inserted at the lower-bound position of that group's comparator
unless that position already holds the room itself; and when the room is
already present in the group and no distinct room of the group is
comparator-equivalent to it, the group is left unchanged (the original
claim's unconditional "no duplicate entry is ever inserted" fails, see
`C3_counterexample`). -/
theorem C3_insert_step (tagsOrder : List String) (gs : List RoomGroup) (cap : String)
    (r : Room) (notify : Bool) (hs : SortedModel tagsOrder gs) :
    ((cap ∈ gs.map RoomGroup.caption →
        (tryInsertGroup tagsOrder gs cap notify).1 = gs ∧
        (tryInsertGroup tagsOrder gs cap notify).2.1 =
          lowerBoundGroupPos tagsOrder gs cap) ∧
     (cap ∉ gs.map RoomGroup.caption →
        (tryInsertGroup tagsOrder gs cap notify).1 =
          gs.insertIdx (lowerBoundGroupPos tagsOrder gs cap) ⟨cap, []⟩ ∧
        SortedGroups tagsOrder (tryInsertGroup tagsOrder gs cap notify).1)) ∧
    (∀ g, (tryInsertGroup tagsOrder gs cap notify).1[(tryInsertGroup tagsOrder gs cap
          notify).2.1]? = some g →
      (insertRoomToGroup tagsOrder gs cap r notify).1 =
        (if g.rooms[lowerBoundRoomPos g r]? = some r
         then (tryInsertGroup tagsOrder gs cap notify).1
         else (tryInsertGroup tagsOrder gs cap notify).1.set
           (tryInsertGroup tagsOrder gs cap notify).2.1
           { g with rooms := g.rooms.insertIdx (lowerBoundRoomPos g r) r })) ∧
    (∀ g, gs[lowerBoundGroupPos tagsOrder gs cap]? = some g → g.caption = cap →
      r ∈ g.rooms →
      (∀ x ∈ g.rooms, x ≠ r → roomKey g.caption x ≠ roomKey g.caption r) →
      (insertRoomToGroup tagsOrder gs cap r notify).1 = gs) := by
  refine ⟨⟨?_, ?_⟩, ?_, ?_⟩
  · intro hmem
    have hc := (caption_found_iff tagsOrder gs cap hs.1).mpr hmem
    rw [tryInsertGroup_found tagsOrder gs cap notify hc]
    exact ⟨rfl, rfl⟩
  · intro hmem
    have hc : ¬ (gs[lowerBoundGroupPos tagsOrder gs cap]?).map RoomGroup.caption = some cap :=
      fun h => hmem ((caption_found_iff tagsOrder gs cap hs.1).mp h)
    rw [tryInsertGroup_created tagsOrder gs cap notify hc]
    exact ⟨rfl, sortedGroups_insert tagsOrder gs cap hs.1 hc⟩
  · intro g hg
    unfold insertRoomToGroup
    dsimp only
    rw [hg]
    dsimp only
    by_cases hr : g.rooms[lowerBoundRoomPos g r]? = some r
    · rw [if_pos hr, if_pos hr]
    · rw [if_neg hr, if_neg hr]
  · intro g hg hcap hmem hnt
    have hc : (gs[lowerBoundGroupPos tagsOrder gs cap]?).map RoomGroup.caption = some cap := by
      rw [hg]
      simp [hcap]
    unfold insertRoomToGroup
    rw [tryInsertGroup_found tagsOrder gs cap notify hc]
    dsimp only
    rw [hg]
    dsimp only
    obtain ⟨hgl, hge⟩ := List.getElem?_eq_some.mp hg
    have hsr : SortedRooms g := hs.2 g (hge ▸ List.getElem_mem hgl)
    rw [if_pos (room_found_at_lb g r hsr hnt hmem)]

set_option maxRecDepth 100000 in
/-- C3, witness: `C3_insert_step` at the concrete sorted model `exModel`,
whose favourite group holds no comparator-equivalent rooms: re-inserting the
already-present room `exRoomB` leaves the model unchanged. -/
theorem C3_witness :
    (insertRoomToGroup DefaultTagsOrder exGroups FavouriteTag exRoomB false).1
      = exGroups :=
  (C3_insert_step DefaultTagsOrder exGroups FavouriteTag exRoomB false (by decide)).2.2
    ⟨FavouriteTag, [exRoomA, exRoomB, exRoomC]⟩ (by decide) (by decide) (by decide)
    (by decide)

/-! ## C6: deleteRoom -/

/-- Elements of `l.set n b`, positionally. -/
theorem mem_set_pos {l : List α} {b x : α} {n : Nat} (hx : x ∈ l.set n b) :
    x = b ∨ ∃ j, ∃ hj : j < l.length, j ≠ n ∧ x = l[j] := by
  obtain ⟨k, hk, rfl⟩ := List.getElem_of_mem hx
  rw [List.length_set] at hk
  by_cases hkn : n = k
  · subst hkn
    left
    exact List.getElem_set_self (by rw [List.length_set]; exact hk)
  · right
    refine ⟨k, hk, fun h => hkn h.symm, ?_⟩
    rw [List.getElem_set_ne hkn]

/-- Elements of `(l.set n b).eraseIdx n`, positionally. -/
theorem mem_eraseIdx_set_pos {l : List α} {b x : α} {n : Nat}
    (hx : x ∈ (l.set n b).eraseIdx n) :
    ∃ j, ∃ hj : j < l.length, j ≠ n ∧ x = l[j] := by
  obtain ⟨k, hk, rfl⟩ := List.getElem_of_mem hx
  have hkl : k < l.length ∨ k + 1 < l.length := by
    rw [List.length_eraseIdx, List.length_set] at hk
    split at hk <;> omega
  rw [List.getElem_eraseIdx]
  split
  · next hlt =>
    refine ⟨k, ?_, by omega, ?_⟩
    · rcases hkl with h | h
      · exact h
      · omega
    · rw [List.getElem_set_ne (by omega)]
  · next hge =>
    have hk1 : k + 1 < l.length := by
      rw [List.length_eraseIdx, List.length_set] at hk
      split at hk <;> omega
    refine ⟨k + 1, hk1, by omega, ?_⟩
    rw [List.getElem_set_ne (by omega)]

/-- With duplicate-free rooms, erasing the room's position removes it
entirely. -/
theorem not_mem_eraseIdx_of_nodup {l : List α} {i : Nat} {r : α}
    (hnd : l.Nodup) (hi : i < l.length) (he : l[i] = r) : r ∉ l.eraseIdx i := by
  intro hmem
  obtain ⟨k, hk, hke⟩ := List.getElem_of_mem hmem
  rw [List.getElem_eraseIdx] at hke
  split at hke
  · next hlt =>
    rw [← he] at hke
    have := (List.Nodup.getElem_inj_iff hnd).mp hke
    omega
  · next hge =>
    rw [← he] at hke
    have := (List.Nodup.getElem_inj_iff hnd).mp hke
    omega

/-- Elements after `doRemoveRoom`: an untouched group of the old list or the
explicitly modified group. -/
theorem doRemoveRoom_members (gs : List RoomGroup) (gPos rPos : Nat) :
    ∀ x ∈ (doRemoveRoom gs gPos rPos).1, x ∈ gs ∨
      ∃ g, gs[gPos]? = some g ∧ x = { g with rooms := g.rooms.eraseIdx rPos } := by
  unfold doRemoveRoom
  dsimp only
  split
  · intro x hx
    exact Or.inl hx
  · next g hg =>
    by_cases hrp : rPos < g.rooms.length
    · rw [if_pos hrp]
      by_cases hemp : (g.rooms.eraseIdx rPos).isEmpty
      · rw [if_pos hemp]
        intro x hx
        exact Or.inl (mem_eraseIdx_set hx)
      · rw [if_neg hemp]
        intro x hx
        rcases List.mem_or_eq_of_mem_set hx with hmem | rfl
        · exact Or.inl hmem
        · exact Or.inr ⟨g, hg, rfl⟩
    · rw [if_neg hrp]
      intro x hx
      exact Or.inl hx

/-- Elements after a `doRemoveRoom` on a valid index, positionally: an
untouched group at a position other than `gPos`, or the modified group. -/
theorem doRemoveRoom_members_pos (gs : List RoomGroup) (gPos rPos : Nat)
    (g : RoomGroup) (hg : gs[gPos]? = some g) (hrp : rPos < g.rooms.length) :
    ∀ x ∈ (doRemoveRoom gs gPos rPos).1,
      (∃ j, ∃ hj : j < gs.length, j ≠ gPos ∧ x = gs[j]) ∨
      x = { g with rooms := g.rooms.eraseIdx rPos } := by
  unfold doRemoveRoom
  rw [hg]
  dsimp only
  rw [if_pos hrp]
  by_cases hemp : (g.rooms.eraseIdx rPos).isEmpty
  · rw [if_pos hemp]
    intro x hx
    exact Or.inl (mem_eraseIdx_set_pos hx)
  · rw [if_neg hemp]
    intro x hx
    rcases mem_set_pos hx with rfl | hj
    · exact Or.inr rfl
    · exact Or.inl hj

/-- No distinct room of any group compares equivalent to `r` (the twin-free
side condition under which positional lookups identify `r` uniquely). -/
def NoTwinFor (gs : List RoomGroup) (r : Room) : Prop :=
  ∀ g ∈ gs, ∀ x ∈ g.rooms, x ≠ r → roomKey g.caption x ≠ roomKey g.caption r

instance (gs : List RoomGroup) (r : Room) : Decidable (NoTwinFor gs r) := by
  unfold NoTwinFor
  infer_instance

/-- Per-group duplicate-freedom of the room lists. -/
def NodupRooms (gs : List RoomGroup) : Prop := ∀ g ∈ gs, g.rooms.Nodup

instance (gs : List RoomGroup) : Decidable (NodupRooms gs) := by
  unfold NodupRooms
  infer_instance

theorem nodupRooms_doRemoveRoom (gs : List RoomGroup) (gPos rPos : Nat)
    (h : NodupRooms gs) : NodupRooms (doRemoveRoom gs gPos rPos).1 := by
  intro x hx
  rcases doRemoveRoom_members gs gPos rPos x hx with hmem | ⟨g, hg, rfl⟩
  · exact h x hmem
  · obtain ⟨hgl, hge⟩ := List.getElem?_eq_some.mp hg
    exact (h g (hge ▸ List.getElem_mem hgl)).sublist (List.eraseIdx_sublist _ rPos)

theorem noTwinFor_doRemoveRoom (gs : List RoomGroup) (gPos rPos : Nat) (r : Room)
    (h : NoTwinFor gs r) : NoTwinFor (doRemoveRoom gs gPos rPos).1 r := by
  intro x hx y hy hne
  rcases doRemoveRoom_members gs gPos rPos x hx with hmem | ⟨g, hg, rfl⟩
  · exact h x hmem y hy hne
  · obtain ⟨hgl, hge⟩ := List.getElem?_eq_some.mp hg
    exact h g (hge ▸ List.getElem_mem hgl) y
      (List.mem_of_mem_eraseIdx hy) hne

/-- Zeta-reduced unfolding of `indexOfRoom`. -/
theorem indexOfRoom_eq (tagsOrder : List String) (gs : List RoomGroup)
    (cap : String) (r : Room) :
    indexOfRoom tagsOrder gs cap r =
      (match gs[lowerBoundGroupPos tagsOrder gs cap]? with
       | none => none
       | some g =>
         if g.caption ≠ cap then none
         else if g.rooms[lowerBoundRoomPos g r]? = some r then
           some (lowerBoundGroupPos tagsOrder gs cap, lowerBoundRoomPos g r)
         else none) := rfl

/-- Characterisation of a successful `indexOf` lookup. -/
theorem indexOfRoom_some (tagsOrder : List String) (gs : List RoomGroup)
    (cap : String) (r : Room) (p : Nat × Nat)
    (h : indexOfRoom tagsOrder gs cap r = some p) :
    ∃ g, p.1 = lowerBoundGroupPos tagsOrder gs cap ∧ gs[p.1]? = some g ∧
      g.caption = cap ∧ p.2 = lowerBoundRoomPos g r ∧ g.rooms[p.2]? = some r := by
  rw [indexOfRoom_eq] at h
  split at h
  · cases h
  · next g hg =>
    by_cases hcap : g.caption ≠ cap
    · rw [if_pos hcap] at h
      cases h
    · rw [if_neg hcap] at h
      by_cases hr : g.rooms[lowerBoundRoomPos g r]? = some r
      · rw [if_pos hr] at h
        cases h
        exact ⟨g, rfl, hg, Decidable.not_not.mp hcap, rfl, hr⟩
      · rw [if_neg hr] at h
        cases h

/-- A failed `indexOf` lookup means no group with that caption lists `r`
(under the sorted, twin-free invariants). -/
theorem indexOfRoom_none (tagsOrder : List String) (gs : List RoomGroup)
    (cap : String) (r : Room) (hs : SortedModel tagsOrder gs)
    (hnt : NoTwinFor gs r)
    (h : indexOfRoom tagsOrder gs cap r = none) :
    ∀ g ∈ gs, g.caption = cap → r ∉ g.rooms := by
  intro g hgmem hgcap hrmem
  obtain ⟨k, hk, rfl⟩ := List.getElem_of_mem hgmem
  have hkeq := capPos_unique tagsOrder gs cap hs.1 k hk hgcap
  have hg : gs[lowerBoundGroupPos tagsOrder gs cap]? = some gs[k] := by
    rw [← hkeq, List.getElem?_eq_getElem hk]
  have hfound := room_found_at_lb gs[k] r (hs.2 _ hgmem)
    (fun x hx => hnt gs[k] hgmem x hx) hrmem
  rw [indexOfRoom_eq] at h
  split at h
  · next hnone => rw [hg] at hnone; cases hnone
  · next g hsome =>
    rw [hg] at hsome
    cases hsome
    rw [if_neg (by rw [hgcap]; exact fun hne => hne rfl)] at h
    rw [if_pos hfound] at h
    cases h

/-- `r` is absent from every group captioned `cap`. -/
def RemovedFrom (gs : List RoomGroup) (cap : String) (r : Room) : Prop :=
  ∀ g ∈ gs, g.caption = cap → r ∉ g.rooms

instance (gs : List RoomGroup) (cap : String) (r : Room) :
    Decidable (RemovedFrom gs cap r) := by
  unfold RemovedFrom
  infer_instance

theorem removedFrom_doRemoveRoom (gs : List RoomGroup) (gPos rPos : Nat)
    (cap : String) (r : Room) (h : RemovedFrom gs cap r) :
    RemovedFrom (doRemoveRoom gs gPos rPos).1 cap r := by
  intro x hx hcap hmem
  rcases doRemoveRoom_members gs gPos rPos x hx with hmemo | ⟨g, hg, rfl⟩
  · exact h x hmemo hcap hmem
  · obtain ⟨hgl, hge⟩ := List.getElem?_eq_some.mp hg
    exact h g (hge ▸ List.getElem_mem hgl) hcap (List.mem_of_mem_eraseIdx hmem)

/-- After a successful lookup the removal step leaves no group captioned
`cap` containing `r` (under the sorted, duplicate-free, twin-free
invariants). -/
theorem removedFrom_after_lookup (tagsOrder : List String) (acc : List RoomGroup)
    (cap : String) (r : Room) (hs : SortedModel tagsOrder acc)
    (hnd : NodupRooms acc) (p : Nat × Nat)
    (hio : indexOfRoom tagsOrder acc cap r = some p) :
    RemovedFrom (doRemoveRoom acc p.1 p.2).1 cap r := by
  obtain ⟨g, hp1, hg, hgcap, hp2, hr⟩ := indexOfRoom_some tagsOrder acc cap r p hio
  obtain ⟨hrl, hre⟩ := List.getElem?_eq_some.mp hr
  obtain ⟨hgl, hgeq⟩ := List.getElem?_eq_some.mp hg
  intro x hx hxcap hxmem
  rcases doRemoveRoom_members_pos acc p.1 p.2 g hg hrl x hx with ⟨j, hj, hjne, rfl⟩ | rfl
  · have hj2 := capPos_unique tagsOrder acc cap hs.1 j hj hxcap
    have hg2 := capPos_unique tagsOrder acc cap hs.1 p.1 hgl (by rw [hgeq]; exact hgcap)
    rw [hp1] at hjne
    exact hjne hj2
  · have hnd2 : g.rooms.Nodup := hnd g (by rw [← hgeq]; exact List.getElem_mem hgl)
    exact not_mem_eraseIdx_of_nodup hnd2 hrl hre hxmem

/-- C6 — deleteRoom removes the room from every group the order lists it
under, and no emptied group survives, provided the model is sorted, its room
lists are duplicate-free, and no distinct room object is
comparator-equivalent to the deleted one. -/
theorem C6_deleteRoom (tagsOrder : List String) (gs : List RoomGroup) (r : Room)
    (hs : SortedModel tagsOrder gs) (hnd : NodupRooms gs) (hnt : NoTwinFor gs r)
    (hne : NonemptyGroups gs) :
    (∀ cap ∈ groupsOf r,
      RemovedFrom (deleteRoom tagsOrder gs r).1 cap r) ∧
      NonemptyGroups (deleteRoom tagsOrder gs r).1 := by
  refine ⟨?_, nonempty_deleteRoom tagsOrder gs r hne⟩
  unfold deleteRoom
  generalize (groupsOf r) = caps
  have hpres : ∀ (cap : String) (caps : List String) (acc : List RoomGroup × List Event),
      RemovedFrom acc.1 cap r →
      RemovedFrom ((caps.foldl (fun acc cap =>
        match indexOfRoom tagsOrder acc.1 cap r with
        | none => acc
        | some p =>
          let s := doRemoveRoom acc.1 p.1 p.2
          (s.1, acc.2 ++ s.2)) acc).1) cap r := by
    intro cap caps
    induction caps with
    | nil => intro acc h; exact h
    | cons c cs ih =>
      intro acc h
      rw [List.foldl_cons]
      rcases hio : indexOfRoom tagsOrder acc.1 c r with _ | p
      · exact ih acc h
      · exact ih ((doRemoveRoom acc.1 p.1 p.2).1, acc.2 ++ (doRemoveRoom acc.1 p.1 p.2).2)
          (removedFrom_doRemoveRoom acc.1 p.1 p.2 cap r h)
  have haux : ∀ (caps : List String) (acc : List RoomGroup × List Event),
      SortedModel tagsOrder acc.1 → NodupRooms acc.1 → NoTwinFor acc.1 r →
      ∀ cap ∈ caps,
      RemovedFrom ((caps.foldl (fun acc cap =>
        match indexOfRoom tagsOrder acc.1 cap r with
        | none => acc
        | some p =>
          let s := doRemoveRoom acc.1 p.1 p.2
          (s.1, acc.2 ++ s.2)) acc).1) cap r := by
    intro caps
    induction caps with
    | nil =>
      intro acc hacc hand hant cap hcap
      cases hcap
    | cons c cs ih =>
      intro acc hacc hand hant cap hcap
      rw [List.foldl_cons]
      rcases List.mem_cons.mp hcap with rfl | hcap2
      · rcases hio : indexOfRoom tagsOrder acc.1 cap r with _ | p
        · exact hpres cap cs acc
            (indexOfRoom_none tagsOrder acc.1 cap r hacc hant hio)
        · exact hpres cap cs
            ((doRemoveRoom acc.1 p.1 p.2).1, acc.2 ++ (doRemoveRoom acc.1 p.1 p.2).2)
            (removedFrom_after_lookup tagsOrder acc.1 cap r hacc hand p hio)
      · rcases hio : indexOfRoom tagsOrder acc.1 c r with _ | p
        · exact ih acc hacc hand hant cap hcap2
        · exact ih ((doRemoveRoom acc.1 p.1 p.2).1, acc.2 ++ (doRemoveRoom acc.1 p.1 p.2).2)
            (sortedModel_doRemoveRoom tagsOrder acc.1 p.1 p.2 hacc)
            (nodupRooms_doRemoveRoom acc.1 p.1 p.2 hand)
            (noTwinFor_doRemoveRoom acc.1 p.1 p.2 r hant) cap hcap2
  exact haux caps (gs, []) hs hnd hnt

/-- C6 counterexample: with two room objects for the same room id `!x` on two
connections (a state two insertRoom calls produce), deleteRoom of the first
one changes nothing — the direct-chat group the order lists it under still
contains it, because the positional lookup lands on the comparator-equal
twin and fails. -/
theorem C6_counterexample :
    DirectChat ∈ groupsOf exTwinA ∧
    (∃ g ∈ exTwinGroups, g.caption = DirectChat ∧ exTwinA ∈ g.rooms) ∧
    (deleteRoom DefaultTagsOrder exTwinGroups exTwinA).1 = exTwinGroups ∧
    ∃ g ∈ (deleteRoom DefaultTagsOrder exTwinGroups exTwinA).1,
      g.caption = DirectChat ∧ exTwinA ∈ g.rooms := by
  decide

set_option maxRecDepth 100000 in
/-- C6 witness: deleting `!b` from the sorted favourites group satisfies all
hypotheses of `C6_deleteRoom` and its conclusion at this input. -/
theorem C6_witness :
    (SortedModel DefaultTagsOrder exGroups ∧ NodupRooms exGroups ∧
      NoTwinFor exGroups exRoomB ∧ NonemptyGroups exGroups) ∧
    ((∀ cap ∈ groupsOf exRoomB,
        RemovedFrom (deleteRoom DefaultTagsOrder exGroups exRoomB).1 cap exRoomB) ∧
      NonemptyGroups (deleteRoom DefaultTagsOrder exGroups exRoomB).1) :=
  ⟨⟨by decide, by decide, by decide, by decide⟩,
   C6_deleteRoom DefaultTagsOrder exGroups exRoomB (by decide) (by decide)
     (by decide) (by decide)⟩

/-! ## C4: the group comparator against the spec wording -/

/-- The positions of the dots of `v` at or below `k`, from right to left. -/
def dotsLE (v : List Char) (k : Nat) : List Nat :=
  ((List.range (k + 1)).filter (fun d => v[d]? = some '.')).reverse

/-- All dot positions of `v`, from right to left. -/
def dotsDesc (v : List Char) : List Nat :=
  ((List.range v.length).filter (fun d => v[d]? = some '.')).reverse

/-- Try the namespace wildcard candidates for the given dot positions in
order, returning the first one's index in the list, or the list's size.
This definition follows the SPEC's wording of the fallback, not the code. -/
def tryDots (l : List String) (v : List Char) : List Nat → Nat
  | [] => l.length
  | d :: ds =>
    if wildcardCandidate v d ∈ l then l.indexOf (wildcardCandidate v d)
    else tryDots l v ds

/-- The index the SPEC's words describe: the caption's index in the
tags-order list when literally present, otherwise the index of the first
namespace wildcard entry (prefix up to a dot, plus star) over the caption's
dots from right to left, with absent captions getting the list's size so
they sort after all found ones.  This definition follows the claim's
wording, not the code. -/
def specWildcardIndex (l : List String) (v : String) : Nat :=
  if v ∈ l then l.indexOf v
  else tryDots l v.data (dotsDesc v.data)

/-- The group comparator as the SPEC's words describe it: by wildcard index,
ties broken by lexicographic caption comparison. -/
def specGroupLess (tagsOrder : List String) (g t : String) : Bool :=
  decide (specWildcardIndex tagsOrder g < specWildcardIndex tagsOrder t) ||
    (decide (specWildcardIndex tagsOrder g = specWildcardIndex tagsOrder t) &&
      qstringLess g t)

theorem tryDots_nil (v : List Char) (ds : List Nat) : tryDots [] v ds = 0 := by
  induction ds with
  | nil => rfl
  | cons d ds ih =>
    unfold tryDots
    rw [if_neg (List.not_mem_nil _), ih]

theorem dotsLE_succ (v : List Char) (k : Nat) :
    dotsLE v (k + 1) =
      if v[k + 1]? = some '.' then (k + 1) :: dotsLE v k else dotsLE v k := by
  unfold dotsLE
  rw [List.range_succ, List.filter_append, List.reverse_append]
  by_cases h : v[k + 1]? = some '.'
  · rw [if_pos h]
    simp [h]
  · rw [if_neg h]
    simp [h]

/-- `lastDotLE` against the descending dot list: a `none` result means no
dots at all below the bound, a `some d` result splits off the head. -/
theorem lastDot_dots (v : List Char) (hnd0 : v[0]? ≠ some '.') : ∀ k : Nat,
    (lastDotLE v k = none → dotsLE v k = []) ∧
    (∀ d, lastDotLE v k = some d →
      1 ≤ d ∧ d ≤ k ∧ dotsLE v k = d :: dotsLE v (d - 1)) := by
  intro k
  induction k with
  | zero =>
    constructor
    · intro _
      unfold dotsLE
      simp [hnd0]
    · intro d hd
      unfold lastDotLE at hd
      rw [if_neg hnd0] at hd
      cases hd
  | succ k ih =>
    by_cases h : v[k + 1]? = some '.'
    · constructor
      · intro hn
        unfold lastDotLE at hn
        rw [if_pos h] at hn
        cases hn
      · intro d hd
        unfold lastDotLE at hd
        rw [if_pos h] at hd
        cases hd
        refine ⟨by omega, by omega, ?_⟩
        rw [dotsLE_succ, if_pos h]
        simp
    · have he : lastDotLE v (k + 1) = lastDotLE v k := by
        rw [show lastDotLE v (k + 1) =
          if v[k + 1]? = some '.' then some (k + 1) else lastDotLE v k from rfl, if_neg h]
      have hdle : dotsLE v (k + 1) = dotsLE v k := by
        rw [dotsLE_succ, if_neg h]
      constructor
      · intro hn
        rw [he] at hn
        rw [hdle]
        exact ih.1 hn
      · intro d hd
        rw [he] at hd
        obtain ⟨h1, h2, h3⟩ := ih.2 d hd
        exact ⟨h1, by omega, hdle ▸ h3⟩

theorem wwLoop_succ (l : List String) (v : List Char) (fuel : Nat) (s : Nat × Int) :
    wwLoop l v (fuel + 1) s =
      match wwStep l v s with
      | none => s.1
      | some t => wwLoop l v fuel t := rfl

/-- One `wwStep` from a not-found state searches dots from the effective
start position and either exits or retries from the found dot. -/
theorem wwStep_not_found (l : List String) (v : List Char) (p : Int) (k : Nat)
    (hstart : (if p - 1 < 0 then p - 1 + (v.length : Int) else p - 1) = (k : Int)) :
    wwStep l v (l.length, p) =
      match lastDotLE v k with
      | none => none
      | some d => some (findIndex l (wildcardCandidate v d), (d : Int)) := by
  unfold wwStep qLastIndexOfDot
  rw [if_neg (fun hne => hne rfl)]
  dsimp only
  rw [hstart]
  rw [if_neg (by omega : ¬ ((k : Int) < 0))]
  rcases hld : lastDotLE v (k : Int).toNat with _ | d
  · rw [Int.toNat_natCast] at hld
    rw [hld]
    rw [if_pos (by omega : (-1 : Int) < 0)]
  · rw [Int.toNat_natCast] at hld
    rw [hld]
    rw [if_neg (by omega : ¬ ((d : Int) < 0)), Int.toNat_natCast]

/-- The wildcard loop from a not-found state, searching from effective start
`k`, computes exactly the spec's right-to-left candidate scan over the dots
at or below `k` — provided the first character is not a dot. -/
theorem wwLoop_tryDots (l : List String) (v : List Char) (hnd0 : v[0]? ≠ some '.') :
    ∀ k fuel : Nat, ∀ p : Int, k + 2 ≤ fuel →
      (if p - 1 < 0 then p - 1 + (v.length : Int) else p - 1) = (k : Int) →
      wwLoop l v fuel (l.length, p) = tryDots l v (dotsLE v k) := by
  intro k
  induction k using Nat.strong_induction_on with
  | _ k ih =>
    intro fuel p hfuel hstart
    obtain ⟨f, rfl⟩ : ∃ f, fuel = f + 1 := ⟨fuel - 1, by omega⟩
    rw [wwLoop_succ, wwStep_not_found l v p k hstart]
    rcases hld : lastDotLE v k with _ | d
    · rw [(lastDot_dots v hnd0 k).1 hld]
      rfl
    · obtain ⟨hd1, hdk, hdec⟩ := (lastDot_dots v hnd0 k).2 d hld
      rw [hdec]
      show wwLoop l v f (findIndex l (wildcardCandidate v d), (d : Int)) =
        tryDots l v (d :: dotsLE v (d - 1))
      unfold tryDots
      by_cases hc : wildcardCandidate v d ∈ l
      · rw [if_pos hc]
        obtain ⟨f2, rfl⟩ : ∃ f2, f = f2 + 1 := ⟨f - 1, by omega⟩
        have hlt : l.indexOf (wildcardCandidate v d) < l.length :=
          List.indexOf_lt_length.mpr hc
        rw [wwLoop_succ]
        rw [show wwStep l v (findIndex l (wildcardCandidate v d), (d : Int)) =
          none from by
            unfold wwStep
            exact if_pos (show findIndex l (wildcardCandidate v d) ≠ l.length from by
              unfold findIndex
              omega)]
        rfl
      · rw [if_neg hc]
        have hni : findIndex l (wildcardCandidate v d) = l.length := by
          unfold findIndex
          rw [List.indexOf_eq_length.mpr hc]
        rw [hni]
        refine ih (d - 1) (by omega) f ((d : Int)) (by omega) ?_
        rw [if_neg (by omega : ¬ ((d : Int) - 1 < 0))]
        omega

/-- On a nonempty caption whose first character is not a dot, the code's
wildcard index agrees with the spec's described fallback. -/
theorem findIndexWithWildcards_eq_spec (l : List String) (v : String)
    (hv : v ≠ "") (hnd0 : (String.data v)[0]? ≠ some '.') :
    findIndexWithWildcards l v = specWildcardIndex l v := by
  have hvd : v.data ≠ [] := fun h => hv (String.ext (h.trans rfl))
  have hlen : 0 < v.data.length := List.length_pos.mpr hvd
  have hve : v.isEmpty = false :=
    Bool.eq_false_iff.mpr (fun h => hv ((String.isEmpty_iff v).mp h))
  have hsl : String.length v = v.data.length := rfl
  unfold findIndexWithWildcards
  by_cases hl : l = []
  · subst hl
    rw [if_pos (by simp)]
    unfold specWildcardIndex
    rw [if_neg (List.not_mem_nil v), tryDots_nil]
    rfl
  · have hle : l.isEmpty = false := by
      rw [List.isEmpty_eq_false]
      exact hl
    rw [if_neg (by rw [hle, hve]; exact Bool.false_ne_true)]
    unfold specWildcardIndex
    by_cases hm : v ∈ l
    · rw [if_pos hm]
      have hlt : l.indexOf v < l.length := List.indexOf_lt_length.mpr hm
      rw [wwLoop_succ]
      rw [show wwStep l v.data (findIndex l v, 0) = none from by
        unfold wwStep
        exact if_pos (show findIndex l v ≠ l.length from by
          unfold findIndex
          omega)]
      rfl
    · rw [if_neg hm]
      have h0 : findIndex l v = l.length := by
        unfold findIndex
        rw [List.indexOf_eq_length.mpr hm]
      rw [h0]
      have hdd : dotsDesc v.data = dotsLE v.data (v.data.length - 1) := by
        unfold dotsDesc dotsLE
        rw [Nat.sub_add_cancel hlen]
      rw [hdd]
      exact wwLoop_tryDots l v.data hnd0 (v.data.length - 1) (v.length + 1) 0
        (by omega)
        (by
          rw [if_pos (by omega : (0 : Int) - 1 < 0)]
          omega)

/-- C4 — for nonempty captions not starting with a dot, the installed group
comparator orders captions exactly as the spec describes: by the tags-order
index with right-to-left wildcard fallback, found before not-found, ties
broken lexicographically. -/
theorem C4_group_comparator (tagsOrder : List String) (g t : String)
    (hg : g ≠ "") (ht : t ≠ "") (hgd : (String.data g)[0]? ≠ some '.')
    (htd : (String.data t)[0]? ≠ some '.') :
    groupLessThan tagsOrder g t = specGroupLess tagsOrder g t := by
  unfold groupLessThan specGroupLess
  rw [findIndexWithWildcards_eq_spec tagsOrder g hg hgd,
    findIndexWithWildcards_eq_spec tagsOrder t ht htd]

/-- C4 counterexample: on the caption `.x` (first character a dot, no
candidate in the list), the loop of `findIndexWithWildcards` reaches a state
that steps to itself — `i` stays at the list's size and
`lastIndexOf('.', --dotPos)` wraps back to the same dot — so the source loop
never exits and the comparator has no value there, although the index the
claim describes exists (the not-found index 1). -/
theorem C4_counterexample :
    wwStep ["m.favourite"] (String.data ".x") (findIndex ["m.favourite"] ".x", 0) =
      some (findIndex ["m.favourite"] ".x", 0) ∧
    specWildcardIndex ["m.favourite"] ".x" = 1 := by
  decide

/-- C4 witness: the comparator equivalence at two concrete dotted captions,
with every hypothesis discharged by evaluation. -/
theorem C4_witness :
    (("m.favourite" : String) ≠ "" ∧ ("u.custom" : String) ≠ "" ∧
      (String.data "m.favourite")[0]? ≠ some '.' ∧
      (String.data "u.custom")[0]? ≠ some '.') ∧
    groupLessThan DefaultTagsOrder "m.favourite" "u.custom" =
      specGroupLess DefaultTagsOrder "m.favourite" "u.custom" :=
  ⟨⟨by decide, by decide, by decide, by decide⟩,
   C4_group_comparator DefaultTagsOrder "m.favourite" "u.custom"
     (by decide) (by decide) (by decide) (by decide)⟩

end RoomList
